import Mathlib

/-!
Formal model of the catalogue deduplication and merge routines in
`herschelhelp_internal/masterlist.py` (`remove_duplicates`, lines 21-106,
and `merge_catalogues`, lines 109-269).

Tables are modelled as ordered lists of named columns; each column holds an
ordered list of cell values.  The spherical cross-matching primitive
(`SkyCoord.search_around_sky`) is the external geometric oracle of the
design: for the self match used by `remove_duplicates` it is modelled as
the enumeration of all index pairs whose coordinates satisfy an abstract
symmetric proximity predicate `near`; for the cross match used by
`merge_catalogues` its result, a list of (idx_2, idx_1, separation)
triples, is passed in directly as data.

Python mutation is made explicit: each modelled function returns the final
state of its table arguments next to its result, so statements about
caller-visible mutation are statements about those components.
-/

namespace Masterlist

/-- A cell value of a catalogue column: a (rational-valued) number, a
boolean, a string, or a masked (missing) entry. -/
inductive Val where
  | num (q : ℚ)
  | bool (b : Bool)
  | str (s : String)
  | masked
deriving DecidableEq, Repr

/-- A named table column: name, optional unit, optional fill value, and the
ordered list of cells. -/
structure Column where
  name : String
  unit : Option String
  fill : Option Val
  data : List Val
deriving DecidableEq, Repr

/-- A table (astropy `Table`) is an ordered list of named columns. -/
structure Table where
  cols : List Column
deriving DecidableEq, Repr

/-- Number of rows: length of the first column (0 for a column-less table). -/
def Table.nrows (t : Table) : Nat :=
  match t.cols with
  | [] => 0
  | c :: _ => c.data.length

/-- Well-formedness: every column has exactly `nrows` cells. -/
def Table.WF (t : Table) : Prop :=
  ∀ c ∈ t.cols, c.data.length = t.nrows

/-- The column names, in column order. -/
def Table.colnames (t : Table) : List String :=
  t.cols.map Column.name

/-- The first column with the given name (astropy column lookup). -/
def Table.getCol (t : Table) (nm : String) : Option Column :=
  t.cols.find? (fun c => decide (c.name = nm))

/-- Rewrite the first column named `nm` with `f`; other columns untouched. -/
def replaceFirstCol (nm : String) (f : Column → Column) : List Column → List Column
  | [] => []
  | c :: cs => if c.name = nm then f c :: cs else c :: replaceFirstCol nm f cs

/-- In-place update of one named column, as a value. -/
def Table.modifyCol (t : Table) (nm : String) (f : Column → Column) : Table :=
  ⟨replaceFirstCol nm f t.cols⟩

/-- `table[nm].unit = u` -/
def Table.setUnit (t : Table) (nm u : String) : Table :=
  t.modifyCol nm (fun c => { c with unit := some u })

/-- `table[nm].fill_value = v` -/
def Table.setFill (t : Table) (nm : String) (v : Val) : Table :=
  t.modifyCol nm (fun c => { c with fill := some v })

/-- `table.add_column(col)` (appended at the end). -/
def Table.addColumn (t : Table) (c : Column) : Table :=
  ⟨t.cols ++ [c]⟩

/-- Set the cells at the listed positions of a cell list to `true`. -/
def setTrueData (idxs : List Nat) (data : List Val) : List Val :=
  (List.range data.length).map
    (fun i => if i ∈ idxs then Val.bool true else data.getD i Val.masked)

/-- `table[nm][idxs] = True`: set the cells at the listed row indices. -/
def Table.setTrueAt (t : Table) (nm : String) (idxs : List Nat) : Table :=
  t.modifyCol nm (fun c => { c with data := setTrueData idxs c.data })

/-- Row selection by an index list (fancy indexing); yields a new table. -/
def Table.selectRows (t : Table) (idxs : List Nat) : Table :=
  ⟨t.cols.map (fun c =>
    { c with data := idxs.map (fun i => c.data.getD i Val.masked) })⟩

/-- `table.reverse()` -/
def Table.reverseRows (t : Table) : Table :=
  ⟨t.cols.map (fun c => { c with data := c.data.reverse })⟩

/-- `table[old].name = newNm` -/
def Table.renameCol (t : Table) (oldNm newNm : String) : Table :=
  t.modifyCol oldNm (fun c => { c with name := newNm })

/-- `table.remove_columns(nms)` -/
def Table.removeColumnsByName (t : Table) (nms : List String) : Table :=
  ⟨t.cols.filter (fun c => decide (c.name ∉ nms))⟩

/-- `hstack([t1, t2])` (the intended use has disjoint column names). -/
def Table.hstack (t1 t2 : Table) : Table :=
  ⟨t1.cols ++ t2.cols⟩

/-- Keep the first occurrence of each element (first-seen order). -/
def dedupFirst {α : Type} [DecidableEq α] : List α → List α
  | [] => []
  | a :: l => a :: dedupFirst (l.filter (fun b => decide (b ≠ a)))
termination_by l => l.length
decreasing_by
  simp only [List.length_cons]
  exact Nat.lt_succ_of_le (List.length_filter_le _ _)

/-- Cells a table contributes to a stacked column named `nm`: its own cells
when it has such a column, otherwise masked entries (astropy `vstack`
produces masked values for columns missing on a row's origin side). -/
def vstackContrib (nm : String) (t : Table) : List Val :=
  match t.getCol nm with
  | some c => c.data
  | none => List.replicate t.nrows Val.masked

/-- Metadata of a stacked column: taken from the first table having it. -/
def vstackMeta (nm : String) : List Table → Option Column
  | [] => none
  | t :: ts =>
    match t.getCol nm with
    | some c => some c
    | none => vstackMeta nm ts

/-- `vstack(ts)`: column set is the union of the column names in
first-appearance order; data is the concatenation of the per-table
contributions. -/
def Table.vstack (ts : List Table) : Table :=
  ⟨(dedupFirst (ts.map Table.colnames).flatten).map (fun nm =>
    { name := nm
      unit := (vstackMeta nm ts).bind Column.unit
      fill := (vstackMeta nm ts).bind Column.fill
      data := (ts.map (vstackContrib nm)).flatten })⟩

/-- Whether a column name contains the substring "flag"
(`'flag' in colname`). -/
def containsFlag (s : String) : Bool := decide (List.IsInfix "flag".toList s.toList)

/-- Replace a masked cell by boolean `False`; keep other cells. -/
def fillFalse (v : Val) : Val := if v = Val.masked then Val.bool false else v

/-- The post-`vstack` fill loop (lines 261-263): in every flag-named column
set the masked cells to `False`. -/
def Table.fillFlagMasked (t : Table) : Table :=
  ⟨t.cols.map (fun c =>
    if containsFlag c.name then { c with data := c.data.map fillFalse } else c)⟩

/-- Element-wise or of two boolean cells (junk on non-boolean cells, where
the Python operation would raise). -/
def orVal : Val → Val → Val
  | Val.bool a, Val.bool b => Val.bool (a || b)
  | _, _ => Val.masked

/-- `t[dst] |= t[src]` -/
def Table.orCols (t : Table) (dst src : String) : Table :=
  match t.getCol src with
  | none => t
  | some s => t.modifyCol dst (fun c => { c with data := c.data.zipWith orVal s.data })

/-- `t[nm] |= mask` for a boolean mask array. -/
def Table.orMask (t : Table) (nm : String) (mask : List Bool) : Table :=
  t.modifyCol nm (fun c => { c with data := c.data.zipWith orVal (mask.map Val.bool) })

/-- Default coordinate used by total lookups. -/
def mCoord : Val × Val := (Val.masked, Val.masked)

/-- The (ra, dec) cell pairs of a table (`SkyCoord(table[ra], table[dec])`). -/
def Table.coordsOf (t : Table) (ra dec : String) : List (Val × Val) :=
  match t.getCol ra, t.getCol dec with
  | some a, some b => a.data.zip b.data
  | _, _ => []

/-- Total indexed access into a coordinate list. -/
def coordAt (coords : List (Val × Val)) (i : Nat) : Val × Val := coords.getD i mCoord

/-- A concrete proximity predicate usable as the oracle's radius test on
numeric cells: squared planar distance at most `r2`.  (Witness inputs only;
the real oracle uses the spherical separation.) -/
def sqNear (r2 : ℚ) : Val × Val → Val × Val → Bool
  | (Val.num x, Val.num y), (Val.num z, Val.num w) =>
    decide ((x - z) ^ 2 + (y - w) ^ 2 ≤ r2)
  | _, _ => false

/-- A small concrete catalogue: rows 0 and 1 coincide, row 2 is far away. -/
def exT : Table :=
  ⟨[{ name := "ra", unit := none, fill := none
      data := [Val.num 0, Val.num 0, Val.num 10] },
    { name := "dec", unit := none, fill := none
      data := [Val.num 0, Val.num 0, Val.num 0] }]⟩

/-- A second concrete catalogue with differently named position columns:
row 0 coincides with rows 0-1 of `exT`, row 1 is far away. -/
def exT2 : Table :=
  ⟨[{ name := "RA", unit := none, fill := none
      data := [Val.num 0, Val.num 20] },
    { name := "DEC", unit := none, fill := none
      data := [Val.num 0, Val.num 0] }]⟩

/-- A concrete catalogue that already carries a `flag_merged` column from an
earlier merge round: row 0 is flagged, row 1 is not. -/
def exF : Table :=
  ⟨[{ name := "ra", unit := none, fill := none
      data := [Val.num 0, Val.num 10] },
    { name := "dec", unit := none, fill := none
      data := [Val.num 0, Val.num 0] },
    { name := "flag_merged", unit := none, fill := none
      data := [Val.bool true, Val.bool false] }]⟩

/-- The cells of the first column with the given name ([] when absent). -/
def Table.colData (t : Table) (nm : String) : List Val :=
  match t.getCol nm with
  | some c => c.data
  | none => []

/-- The cell of the named column at row `i` (masked when out of range). -/
def Table.cellD (t : Table) (nm : String) (i : Nat) : Val :=
  (t.colData nm).getD i Val.masked

/-- Self cross-match oracle (`coords.search_around_sky(coords, radius)`):
all ordered index pairs, self pairs included, whose coordinates satisfy the
proximity predicate `near` standing for the radius test. -/
def searchSelf (near : Val × Val → Val × Val → Bool) (coords : List (Val × Val)) :
    List (Nat × Nat) :=
  (List.range coords.length).flatMap (fun i =>
    ((List.range coords.length).filter (fun j => near (coordAt coords i) (coordAt coords j))).map
      (fun j => (i, j)))

/-! ### `remove_duplicates` -/

/-- Lexicographic rank of a cell constructor, for cross-kind comparisons. -/
def Val.rank : Val → Nat
  | Val.masked => 0
  | Val.bool _ => 1
  | Val.num _ => 2
  | Val.str _ => 3

/-- Comparison of two cells (used only by the optional sort step). -/
def Val.cmp (a b : Val) : Ordering :=
  match a, b with
  | Val.num x, Val.num y => if x < y then .lt else if y < x then .gt else .eq
  | Val.str x, Val.str y => if x < y then .lt else if y < x then .gt else .eq
  | Val.bool x, Val.bool y => if x = y then .eq else if x then .gt else .lt
  | x, y => compare x.rank y.rank

/-- Lexicographic comparison of two rows on the given key columns. -/
def rowCmp (t : Table) : List String → Nat → Nat → Ordering
  | [], _, _ => .eq
  | k :: ks, i, j =>
    let c := match t.getCol k with
      | some col => Val.cmp (col.data.getD i Val.masked) (col.data.getD j Val.masked)
      | none => Ordering.eq
    match c with
    | .eq => rowCmp t ks i j
    | o => o

/-- Insert `a` before the first element not strictly smaller (stable). -/
def insB {α : Type} (lt : α → α → Bool) (a : α) : List α → List α
  | [] => [a]
  | b :: l => if lt b a then b :: insB lt a l else a :: b :: l

/-- Stable insertion sort. -/
def ssortBy {α : Type} (lt : α → α → Bool) : List α → List α
  | [] => []
  | a :: l => insB lt a (ssortBy lt l)

/-- `table.sort(keys)`: reorder all rows by the lexicographic key order. -/
def Table.sortRows (t : Table) (keys : List String) : Table :=
  t.selectRows (ssortBy (fun i j => decide (rowCmp t keys i j = Ordering.lt))
    (List.range t.nrows))

/-- The sort / reverse / unit-coercion preparation performed on the working
copy before the self match (lines 69-77). -/
def dedupPrep (t : Table) (ra_col dec_col : String) (sort_col : Option (List String))
    (reverse : Bool) : Table :=
  let t1 := match sort_col with
    | some keys => t.sortRows keys
    | none => t
  let t2 := if reverse then t1.reverseRows else t1
  (t2.setUnit ra_col "deg").setUnit dec_col "deg"

/-- The non-self pairs of the self match: `idx1`, `idx2` after the
`idx1 != idx2` mask (lines 80-85). -/
def dedupPairs (near : Val × Val → Val × Val → Bool) (coords : List (Val × Val)) :
    List (Nat × Nat) :=
  (searchSelf near coords).filter (fun p => decide (p.1 ≠ p.2))

/-- The working table with the duplication-flag column added (all `False`),
its fill value set to `False`, and the flag set at every index appearing on
the `idx1` side of a surviving pair (lines 92-98). -/
def dedupFlagged (t : Table) (flag_name : String) (prs : List (Nat × Nat)) : Table :=
  (((t.addColumn
      { name := flag_name, unit := none, fill := none
        data := List.replicate t.nrows (Val.bool false) }).setFill flag_name
      (Val.bool false)).setTrueAt flag_name (prs.map Prod.fst))

/-- Indices marked for removal: `idx1[idx1 > idx2]` (line 103). -/
def dedupRemoveIdx (prs : List (Nat × Nat)) : List Nat :=
  (prs.filter (fun p => decide (p.1 > p.2))).map Prod.fst

/-- Indices kept: `in1d(arange(len(table)), remove_idx, invert=True)`
(line 104). -/
def dedupKeepIdx (n : Nat) (prs : List (Nat × Nat)) : List Nat :=
  (List.range n).filter (fun i => decide (i ∉ dedupRemoveIdx prs))

/-- Model of `remove_duplicates` (lines 21-106).  The proximity predicate
`near` stands for the radius test of the `search_around_sky` oracle.  The
first component of the result is the final state of the caller's `table`
argument: the function takes a copy on line 67 and every later operation
acts on that copy, so the argument object is returned as it came in.  The
second component is the returned reduced table. -/
def remove_duplicates (table : Table) (ra_col dec_col : String)
    (near : Val × Val → Val × Val → Bool) (sort_col : Option (List String))
    (reverse : Bool) (flag_name : String) : Table × Table :=
  let t := dedupPrep table ra_col dec_col sort_col reverse
  let prs := dedupPairs near (t.coordsOf ra_col dec_col)
  let tf := dedupFlagged t flag_name prs
  (table, tf.selectRows (dedupKeepIdx tf.nrows prs))

/-! ### `merge_catalogues` -/

/-- Cross-match oracle result triple, as unpacked on line 155:
(catalogue-2 index, catalogue-1 index, separation). -/
abbrev CrossPair := Nat × Nat × ℚ

/-- The catalogue-2 index of a cross pair. -/
def cpIdx2 (p : CrossPair) : Nat := p.1

/-- The catalogue-1 index of a cross pair. -/
def cpIdx1 (p : CrossPair) : Nat := p.2.1

/-- The separation of a cross pair. -/
def cpSep (p : CrossPair) : ℚ := p.2.2

/-- Values occurring more than once in a list
(`Counter(...).items()` with `count > 1`). -/
def multiOcc (l : List Nat) : List Nat :=
  (dedupFirst l).filter (fun v => decide (1 < l.count v))

/-- Direct multi-match flags on the catalogue-1 side (lines 165-166). -/
def mergeDirect1 (pairs : List CrossPair) : List Nat := multiOcc (pairs.map cpIdx1)

/-- Direct multi-match flags on the catalogue-2 side (lines 167-168). -/
def mergeDirect2 (pairs : List CrossPair) : List Nat := multiOcc (pairs.map cpIdx2)

/-- `toflag_idx_1` after the one propagation pass (lines 170-174): the
direct multi-matches plus the `idx_1` of every pair whose `idx_2` is a
direct multi-match. -/
def mergeToflag1 (pairs : List CrossPair) : List Nat :=
  dedupFirst (mergeDirect1 pairs ++
    (pairs.filter (fun p => decide (cpIdx2 p ∈ mergeDirect2 pairs))).map cpIdx1)

/-- `toflag_idx_2` after the one propagation pass (lines 171-177). -/
def mergeToflag2 (pairs : List CrossPair) : List Nat :=
  dedupFirst (mergeDirect2 pairs ++
    (pairs.filter (fun p => decide (cpIdx1 p ∈ mergeDirect1 pairs))).map cpIdx2)

/-- `in1d(arange(len(cat_1)), toflag_idx_1)` (lines 183-187). -/
def mergeFlagMask1 (n : Nat) (pairs : List CrossPair) : List Bool :=
  (List.range n).map (fun i => decide (i ∈ mergeToflag1 pairs))

/-- `in1d(arange(len(cat_2)), toflag_idx_2)` (line 191). -/
def mergeFlagMask2 (n : Nat) (pairs : List CrossPair) : List Bool :=
  (List.range n).map (fun i => decide (i ∈ mergeToflag2 pairs))

/-- Stage-B state of `cat_1`: position units coerced in place (lines
145-146) and `flag_merged` or-combined in place, or added when the column
is absent (lines 182-189). -/
def mergeCat1Flagged (cat_1 : Table) (pairs : List CrossPair) : Table :=
  let c := (cat_1.setUnit "ra" "deg").setUnit "dec" "deg"
  if (c.getCol "flag_merged").isSome then
    c.orMask "flag_merged" (mergeFlagMask1 cat_1.nrows pairs)
  else
    c.addColumn { name := "flag_merged", unit := none, fill := none
                  data := (mergeFlagMask1 cat_1.nrows pairs).map Val.bool }

/-- Stage-B state of `cat_2`: position units coerced in place (lines
149-150) and the `flag_merged_2` column added (lines 190-193). -/
def mergeCat2Flagged (cat_2 : Table) (racol_2 decol_2 : String)
    (pairs : List CrossPair) : Table :=
  ((cat_2.setUnit racol_2 "deg").setUnit decol_2 "deg").addColumn
    { name := "flag_merged_2", unit := none, fill := none
      data := (mergeFlagMask2 cat_2.nrows pairs).map Val.bool }

/-- Two (idx_1, idx_2) pairs touch when they share the catalogue-1 row or
the catalogue-2 row. -/
def touches (p q : Nat × Nat) : Bool := decide (p.1 = q.1 ∨ p.2 = q.2)

/-- Selection kernel of one round: a pair is selected when no pair earlier
in the list (the `seen` prefix) shares either of its rows — that is, when
its position is simultaneously the first occurrence of its `idx_1` value
and the first occurrence of its `idx_2` value, which is what the
`intersect1d` of the two `unique(..., return_index=True)` index arrays
computes (lines 212-215). -/
def mfAux (seen : List (Nat × Nat)) : List (Nat × Nat) → List (Nat × Nat)
  | [] => []
  | p :: l =>
    if seen.all (fun s => !(touches s p)) then p :: mfAux (seen ++ [p]) l
    else mfAux (seen ++ [p]) l

/-- The mutually-first pairs of a list, in list order. -/
def mutuallyFirst (l : List (Nat × Nat)) : List (Nat × Nat) := mfAux [] l

/-- The round-based matching loop of Stage C (lines 210-227): commit all
mutually-first pairs of the remaining list, drop every remaining pair
touching a committed row on either side, repeat until empty. -/
def roundMatch (l : List (Nat × Nat)) : List (Nat × Nat) :=
  if h : l = [] then []
  else
    mutuallyFirst l ++
      roundMatch (l.filter (fun q => !((mutuallyFirst l).any (fun m => touches m q))))
termination_by l.length
decreasing_by
  rcases l with _ | ⟨p, t⟩
  · exact absurd rfl h
  · have hp : ((mutuallyFirst (p :: t)).any (fun m => touches m p)) = true :=
      List.any_eq_true.mpr ⟨p, by simp [mutuallyFirst, mfAux], by simp [touches]⟩
    simp only [List.filter_cons, hp, Bool.not_true, List.length_cons]
    exact Nat.lt_succ_of_le (List.length_filter_le _ _)

/-- Modelled from the spec: the sequential matcher the spec describes —
repeatedly take the globally shortest remaining pair (the head of the
sorted remaining list) and delete every remaining pair touching either of
its two rows. -/
def specSequentialMatch : List (Nat × Nat) → List (Nat × Nat)
  | [] => []
  | p :: l => p :: specSequentialMatch (l.filter (fun q => !(touches p q)))
termination_by l => l.length
decreasing_by
  simp only [List.length_cons]
  exact Nat.lt_succ_of_le (List.length_filter_le _ _)

/-- The cross-pair list sorted by increasing separation (`argsort(d2d)`
reordering both index arrays, lines 201-203; the order among exactly equal
separations is the oracle-side freedom, fixed here by a stable sort). -/
def mergeSorted (pairs : List CrossPair) : List CrossPair :=
  ssortBy (fun p q => decide (cpSep p < cpSep q)) pairs

/-- The committed match pairs of Stage C as (catalogue-1 row, catalogue-2
row) pairs in commit order (`match_idx_1` zipped with `match_idx_2`). -/
def mergeMatches (pairs : List CrossPair) : List (Nat × Nat) :=
  roundMatch ((mergeSorted pairs).map (fun p => (cpIdx1 p, cpIdx2 p)))

/-- `match_idx_1` -/
def mergeMatchIdx1 (pairs : List CrossPair) : List Nat :=
  (mergeMatches pairs).map Prod.fst

/-- `match_idx_2` -/
def mergeMatchIdx2 (pairs : List CrossPair) : List Nat :=
  (mergeMatches pairs).map Prod.snd

/-- `unmatched_idx_1 = delete(arange(len(cat_1)), match_idx_1)` (line 230). -/
def mergeUnmatchedIdx1 (n : Nat) (pairs : List CrossPair) : List Nat :=
  (List.range n).filter (fun i => decide (i ∉ mergeMatchIdx1 pairs))

/-- `unmatched_idx_2 = delete(arange(len(cat_2)), match_idx_2)` (line 231). -/
def mergeUnmatchedIdx2 (n : Nat) (pairs : List CrossPair) : List Nat :=
  (List.range n).filter (fun i => decide (i ∉ mergeMatchIdx2 pairs))

/-- `only_in_cat_1` (line 234). -/
def mergeOnly1 (cat_1 : Table) (pairs : List CrossPair) : Table :=
  (mergeCat1Flagged cat_1 pairs).selectRows (mergeUnmatchedIdx1 cat_1.nrows pairs)

/-- `only_in_cat_2` with its position columns renamed to ra/dec
(lines 237-240). -/
def mergeOnly2 (cat_2 : Table) (racol_2 decol_2 : String)
    (pairs : List CrossPair) : Table :=
  (((mergeCat2Flagged cat_2 racol_2 decol_2 pairs).selectRows
      (mergeUnmatchedIdx2 cat_2.nrows pairs)).renameCol racol_2 "ra").renameCol
    decol_2 "dec"

/-- `both_in_cat_1_and_cat_2`: matched rows horizontally joined, with the
catalogue-2 position columns dropped (lines 243-245). -/
def mergeBoth (cat_1 cat_2 : Table) (racol_2 decol_2 : String)
    (pairs : List CrossPair) : Table :=
  (Table.hstack
      ((mergeCat1Flagged cat_1 pairs).selectRows (mergeMatchIdx1 pairs))
      ((mergeCat2Flagged cat_2 racol_2 decol_2 pairs).selectRows
        (mergeMatchIdx2 pairs))).removeColumnsByName [racol_2, decol_2]

/-- The vertical concatenation of the three blocks, in the output order
only-in-cat_1, matched, only-in-cat_2 (lines 255-256). -/
def mergeStacked (cat_1 cat_2 : Table) (racol_2 decol_2 : String)
    (pairs : List CrossPair) : Table :=
  Table.vstack [mergeOnly1 cat_1 pairs,
    mergeBoth cat_1 cat_2 racol_2 decol_2 pairs,
    mergeOnly2 cat_2 racol_2 decol_2 pairs]

/-- The output row position of cat_1's row `i`: unmatched rows come first in
`unmatched_idx_1` order, then the matched rows in commit order. -/
def mergeOutPos (n1 : Nat) (pairs : List CrossPair) (i : Nat) : Nat :=
  if i ∈ mergeMatchIdx1 pairs then
    (mergeUnmatchedIdx1 n1 pairs).length + (mergeMatchIdx1 pairs).indexOf i
  else (mergeUnmatchedIdx1 n1 pairs).indexOf i

/-- Model of `merge_catalogues` (lines 109-269).  `pairs` is the result of
the cross-match oracle call of line 155.  The first two components of the
result are the final states of the caller's `cat_1` and `cat_2` arguments
(the function modifies both in place); the third is the returned merged
catalogue. -/
def merge_catalogues (cat_1 cat_2 : Table) (racol_2 decol_2 : String)
    (pairs : List CrossPair) : Table × Table × Table :=
  let stacked := (mergeStacked cat_1 cat_2 racol_2 decol_2 pairs).fillFlagMasked
  let merged := (stacked.orCols "flag_merged" "flag_merged_2").removeColumnsByName
    ["flag_merged_2"]
  (mergeCat1Flagged cat_1 pairs, mergeCat2Flagged cat_2 racol_2 decol_2 pairs, merged)

/-! ### Stage C: the round loop versus the sequential greedy matcher -/

/-- `q` sits in `l` after a prefix no element of which shares a row with it:
the semantic content of being a mutually-first pair. -/
def FirstBoth (l : List (Nat × Nat)) (q : Nat × Nat) : Prop :=
  ∃ pre post, l = pre ++ q :: post ∧ ∀ s ∈ pre, touches s q = false

/-- Head of a list is always mutually first. -/
theorem head_mem_mutuallyFirst (p : Nat × Nat) (l : List (Nat × Nat)) :
    p ∈ mutuallyFirst (p :: l) := by
  simp [mutuallyFirst, mfAux]

/-- Every pair touches itself. -/
theorem touches_self (p : Nat × Nat) : touches p p = true := by
  simp [touches]

/-- The filter step of one round strictly shrinks a non-empty pair list. -/
theorem roundMatch_rest_lt (l : List (Nat × Nat)) (h : l ≠ []) :
    (l.filter (fun q => !((mutuallyFirst l).any (fun m => touches m q)))).length <
      l.length := by
  rcases l with _ | ⟨p, t⟩
  · exact absurd rfl h
  · have hp : ((mutuallyFirst (p :: t)).any (fun m => touches m p)) = true := by
      exact List.any_eq_true.mpr ⟨p, head_mem_mutuallyFirst p t, touches_self p⟩
    simp only [List.filter_cons, hp, Bool.not_true, List.length_cons]
    exact Nat.lt_succ_of_le (List.length_filter_le _ _)

/-- Unfolding: the sequential matcher on an empty list. -/
theorem specSeq_nil : specSequentialMatch [] = [] := by
  rw [specSequentialMatch.eq_def]

/-- Unfolding: the sequential matcher commits the head and recurses on the
remaining pairs not touching it. -/
theorem specSeq_cons (p : Nat × Nat) (l : List (Nat × Nat)) :
    specSequentialMatch (p :: l) =
      p :: specSequentialMatch (l.filter (fun q => !(touches p q))) := by
  rw [specSequentialMatch.eq_def]

/-- `touches` is symmetric. -/
theorem touches_comm (p q : Nat × Nat) : touches p q = touches q p := by
  unfold touches
  rw [decide_eq_decide]
  omega

/-- Membership in the selection kernel yields the defining split: the pair
occurs in the list and nothing in the seen prefix or in the preceding part
of the list shares a row with it. -/
theorem mfAux_mem_split (l : List (Nat × Nat)) :
    ∀ (seen : List (Nat × Nat)) (q : Nat × Nat), q ∈ mfAux seen l →
      ∃ pre post, l = pre ++ q :: post ∧ ∀ s ∈ seen ++ pre, touches s q = false := by
  induction l with
  | nil => intro seen q h; simp [mfAux] at h
  | cons p t ih =>
    intro seen q h
    by_cases hc : (seen.all (fun s => !(touches s p))) = true
    · rw [mfAux, if_pos hc] at h
      rcases List.mem_cons.mp h with rfl | hmem
      · refine ⟨[], t, rfl, ?_⟩
        intro s hs
        simp only [List.append_nil] at hs
        have := List.all_eq_true.mp hc s hs
        simpa using this
      · obtain ⟨pre, post, heq, hall⟩ := ih (seen ++ [p]) q hmem
        refine ⟨p :: pre, post, by simp [heq], ?_⟩
        intro s hs
        apply hall
        simp only [List.mem_append, List.mem_cons, List.mem_singleton] at hs ⊢
        tauto
    · rw [mfAux, if_neg hc] at h
      obtain ⟨pre, post, heq, hall⟩ := ih (seen ++ [p]) q h
      refine ⟨p :: pre, post, by simp [heq], ?_⟩
      intro s hs
      apply hall
      simp only [List.mem_append, List.mem_cons, List.mem_singleton] at hs ⊢
      tauto

/-- A mutually-first pair is in the list with an untouched prefix. -/
theorem mutuallyFirst_firstBoth {l : List (Nat × Nat)} {q : Nat × Nat}
    (h : q ∈ mutuallyFirst l) : FirstBoth l q := by
  obtain ⟨pre, post, heq, hall⟩ := mfAux_mem_split l [] q h
  exact ⟨pre, post, heq, fun s hs => hall s (by simpa using hs)⟩

/-- The mutually-first pairs are pairs of the list. -/
theorem mutuallyFirst_subset {l : List (Nat × Nat)} {q : Nat × Nat}
    (h : q ∈ mutuallyFirst l) : q ∈ l := by
  obtain ⟨pre, post, heq, -⟩ := mutuallyFirst_firstBoth h
  rw [heq]; simp

/-- A selected pair shares no row with any pair of the seen prefix. -/
theorem mfAux_untouched_seen {seen l : List (Nat × Nat)} {q : Nat × Nat}
    (h : q ∈ mfAux seen l) : ∀ s ∈ seen, touches s q = false := by
  obtain ⟨pre, post, -, hall⟩ := mfAux_mem_split l seen q h
  intro s hs
  exact hall s (by simp [hs])

/-- No two selected pairs share a row. -/
theorem mfAux_pairwise (l : List (Nat × Nat)) :
    ∀ seen, List.Pairwise (fun a b => touches a b = false) (mfAux seen l) := by
  induction l with
  | nil => intro seen; simp [mfAux]
  | cons p t ih =>
    intro seen
    by_cases hc : (seen.all (fun s => !(touches s p))) = true
    · rw [mfAux, if_pos hc]
      refine List.pairwise_cons.mpr ⟨?_, ih (seen ++ [p])⟩
      intro q hq
      exact mfAux_untouched_seen hq p (by simp)
    · rw [mfAux, if_neg hc]
      exact ih (seen ++ [p])

/-- No two mutually-first pairs share a row. -/
theorem mutuallyFirst_pairwise (l : List (Nat × Nat)) :
    List.Pairwise (fun a b => touches a b = false) (mutuallyFirst l) :=
  mfAux_pairwise l []

/-- An untouched-prefix split survives any filtering that keeps the pair. -/
theorem FirstBoth.filterKeep {l : List (Nat × Nat)} {q : Nat × Nat}
    (h : FirstBoth l q) (f : Nat × Nat → Bool) (hf : f q = true) :
    FirstBoth (l.filter f) q := by
  obtain ⟨pre, post, rfl, hall⟩ := h
  refine ⟨pre.filter f, post.filter f, ?_, ?_⟩
  · simp [List.filter_append, List.filter_cons, hf]
  · intro s hs
    exact hall s (List.mem_of_mem_filter hs)

/-- Two successive filters commute into one conjunction. -/
theorem filter_swap {α : Type} (f g : α → Bool) (l : List α) :
    (l.filter f).filter g = (l.filter g).filter f := by
  induction l with
  | nil => rfl
  | cons a t ih =>
    by_cases hf : f a = true <;> by_cases hg : g a = true <;>
      simp [List.filter_cons, hf, hg, ih]

/-- Committing a mutually-first pair first commutes with the sequential
greedy matcher: the committed set of `l` is the pair itself plus the
committed set of `l` with every pair touching it removed. -/
theorem specSeq_commit_firstBoth :
    ∀ (n : Nat) (l : List (Nat × Nat)), l.length ≤ n →
      ∀ q : Nat × Nat, FirstBoth l q → ∀ x : Nat × Nat,
        (x ∈ specSequentialMatch l ↔
          x = q ∨ x ∈ specSequentialMatch (l.filter (fun r => !(touches q r)))) := by
  intro n
  induction n with
  | zero =>
    intro l hl q hq x
    obtain ⟨pre, post, rfl, -⟩ := hq
    simp at hl
  | succ n ih =>
    intro l hl q hq x
    obtain ⟨pre, post, heq, hall⟩ := hq
    cases pre with
    | nil =>
      subst heq
      simp only [List.nil_append]
      rw [specSeq_cons]
      have : (q :: post).filter (fun r => !(touches q r)) =
          post.filter (fun r => !(touches q r)) := by
        simp [List.filter_cons, touches_self]
      rw [this]
      simp
    | cons h0 pre' =>
      subst heq
      have hth : touches h0 q = false := hall h0 (by simp)
      have hqh : touches q h0 = false := by rw [touches_comm]; exact hth
      have hfb : FirstBoth ((pre' ++ q :: post).filter (fun r => !(touches h0 r))) q := by
        refine FirstBoth.filterKeep ⟨pre', post, rfl, ?_⟩ _ (by simp [hth])
        intro s hs
        exact hall s (by simp [hs])
      have hlen : ((pre' ++ q :: post).filter (fun r => !(touches h0 r))).length ≤ n := by
        have h1 := List.length_filter_le (fun r => !(touches h0 r)) (pre' ++ q :: post)
        simp only [List.length_append, List.length_cons] at hl h1
        omega
      have IH := ih _ hlen q hfb x
      rw [List.cons_append, specSeq_cons]
      have hr : (h0 :: (pre' ++ q :: post)).filter (fun r => !(touches q r)) =
          h0 :: ((pre' ++ q :: post).filter (fun r => !(touches q r))) := by
        simp [List.filter_cons, hqh]
      rw [hr, specSeq_cons, filter_swap]
      simp only [List.mem_cons]
      rw [IH]
      tauto

/-- Batched form: committing any set of pairwise non-touching mutually-first
pairs at once commutes with the sequential greedy matcher. -/
theorem specSeq_commit_batch :
    ∀ (S l : List (Nat × Nat)), (∀ q ∈ S, FirstBoth l q) →
      List.Pairwise (fun a b => touches a b = false) S → ∀ x : Nat × Nat,
        (x ∈ specSequentialMatch l ↔
          x ∈ S ∨ x ∈ specSequentialMatch
            (l.filter (fun r => !(S.any (fun m => touches m r))))) := by
  intro S
  induction S with
  | nil =>
    intro l hFB hpw x
    have : l.filter (fun r => !(List.any [] (fun m => touches m r))) = l := by
      simp
    rw [this]
    simp
  | cons m S' ih =>
    intro l hFB hpw x
    have hm : FirstBoth l m := hFB m (by simp)
    have hD := specSeq_commit_firstBoth l.length l le_rfl m hm x
    have hpw' := List.pairwise_cons.mp hpw
    have hFB' : ∀ q ∈ S', FirstBoth (l.filter (fun r => !(touches m r))) q := by
      intro q hq
      refine FirstBoth.filterKeep (hFB q (by simp [hq])) _ ?_
      simp [hpw'.1 q hq]
    have IH := ih (l.filter (fun r => !(touches m r))) hFB' hpw'.2 x
    have hcomb : (l.filter (fun r => !(touches m r))).filter
        (fun r => !(S'.any (fun a => touches a r))) =
        l.filter (fun r => !(List.any (m :: S') (fun a => touches a r))) := by
      rw [List.filter_filter]
      apply List.filter_congr
      intro a ha
      simp [List.any_cons, Bool.and_comm]
    rw [hcomb] at IH
    simp only [List.mem_cons]
    tauto

/-- The round loop commits exactly the pairs of its input list. -/
theorem roundMatch_subset :
    ∀ (n : Nat) (l : List (Nat × Nat)), l.length ≤ n →
      ∀ x ∈ roundMatch l, x ∈ l := by
  intro n
  induction n with
  | zero =>
    intro l hl x hx
    have : l = [] := List.length_eq_zero.mp (Nat.le_zero.mp hl)
    subst this
    rw [roundMatch] at hx
    simp at hx
  | succ n ih =>
    intro l hl x hx
    by_cases h : l = []
    · subst h; rw [roundMatch] at hx; simp at hx
    · rw [roundMatch, dif_neg h] at hx
      rcases List.mem_append.mp hx with hM | hR
      · exact mutuallyFirst_subset hM
      · have hlt := roundMatch_rest_lt l h
        have := ih _ (by omega) x hR
        exact List.mem_of_mem_filter this

/-- Round-loop committed pairs are pairwise row-disjoint. -/
theorem roundMatch_pairwise :
    ∀ (n : Nat) (l : List (Nat × Nat)), l.length ≤ n →
      List.Pairwise (fun a b => touches a b = false) (roundMatch l) := by
  intro n
  induction n with
  | zero =>
    intro l hl
    have : l = [] := List.length_eq_zero.mp (Nat.le_zero.mp hl)
    subst this
    rw [roundMatch]
    simp
  | succ n ih =>
    intro l hl
    by_cases h : l = []
    · subst h; rw [roundMatch]; simp
    · rw [roundMatch, dif_neg h]
      have hlt := roundMatch_rest_lt l h
      refine List.pairwise_append.mpr ⟨mutuallyFirst_pairwise l, ih _ (by omega), ?_⟩
      intro a ha b hb
      have hbl := roundMatch_subset _ _ le_rfl b hb
      have hpred := (List.mem_filter.mp hbl).2
      rw [Bool.not_eq_true', List.any_eq_false] at hpred
      simpa using hpred a ha

/-- Every input pair touches some round-loop committed pair. -/
theorem roundMatch_maximal :
    ∀ (n : Nat) (l : List (Nat × Nat)), l.length ≤ n →
      ∀ q ∈ l, ∃ m ∈ roundMatch l, touches m q = true := by
  intro n
  induction n with
  | zero =>
    intro l hl q hq
    have : l = [] := List.length_eq_zero.mp (Nat.le_zero.mp hl)
    subst this
    simp at hq
  | succ n ih =>
    intro l hl q hq
    have h : l ≠ [] := by rintro rfl; simp at hq
    rw [roundMatch, dif_neg h]
    by_cases hp : ((mutuallyFirst l).any (fun m => touches m q)) = true
    · obtain ⟨m, hmM, hmq⟩ := List.any_eq_true.mp hp
      exact ⟨m, List.mem_append_left _ hmM, hmq⟩
    · have hqrest : q ∈ l.filter
          (fun r => !((mutuallyFirst l).any (fun m => touches m r))) := by
        exact List.mem_filter.mpr ⟨hq, by simpa using hp⟩
      have hlt := roundMatch_rest_lt l h
      obtain ⟨m, hmR, hmq⟩ := ih _ (by omega) q hqrest
      exact ⟨m, List.mem_append_right _ hmR, hmq⟩

/-- The round loop and the sequential greedy matcher commit the same pairs. -/
theorem roundMatch_mem_iff :
    ∀ (n : Nat) (l : List (Nat × Nat)), l.length ≤ n → ∀ x : Nat × Nat,
      (x ∈ roundMatch l ↔ x ∈ specSequentialMatch l) := by
  intro n
  induction n with
  | zero =>
    intro l hl x
    have : l = [] := List.length_eq_zero.mp (Nat.le_zero.mp hl)
    subst this
    rw [roundMatch, specSequentialMatch]
    simp
  | succ n ih =>
    intro l hl x
    by_cases h : l = []
    · subst h; rw [roundMatch, specSequentialMatch]; simp
    · rw [roundMatch, dif_neg h]
      have hbatch := specSeq_commit_batch (mutuallyFirst l) l
        (fun q hq => mutuallyFirst_firstBoth hq) (mutuallyFirst_pairwise l) x
      have hlt := roundMatch_rest_lt l h
      have IH := ih (l.filter (fun q => !((mutuallyFirst l).any (fun m => touches m q))))
        (by omega) x
      rw [List.mem_append, IH, hbatch]

/-- Membership is preserved by stable insertion. -/
theorem mem_insB {α : Type} (lt : α → α → Bool) (a x : α) (l : List α) :
    x ∈ insB lt a l ↔ x = a ∨ x ∈ l := by
  induction l with
  | nil => simp [insB]
  | cons b t ih =>
    rw [insB]
    by_cases hb : lt b a = true
    · rw [if_pos hb]
      simp only [List.mem_cons, ih]
      tauto
    · rw [if_neg hb]
      simp only [List.mem_cons]

/-- Membership is preserved by the stable sort. -/
theorem mem_ssortBy {α : Type} (lt : α → α → Bool) (x : α) (l : List α) :
    x ∈ ssortBy lt l ↔ x ∈ l := by
  induction l with
  | nil => simp [ssortBy]
  | cons a t ih =>
    rw [ssortBy, mem_insB]
    simp [ih]

/-- Not touching means differing on both components. -/
theorem touches_false_iff {a b : Nat × Nat} :
    touches a b = false ↔ a.1 ≠ b.1 ∧ a.2 ≠ b.2 := by
  unfold touches
  rw [decide_eq_false_iff_not]
  tauto

/-- The committed pairs of Stage C are pairwise row-disjoint. -/
theorem mergeMatches_pairwise (pairs : List CrossPair) :
    List.Pairwise (fun a b => touches a b = false) (mergeMatches pairs) :=
  roundMatch_pairwise _ _ le_rfl

/-- C3: the round-based matching loop of Stage C commits exactly the same
set of (cat_1-row, cat_2-row) pairs as the sequential algorithm that
repeatedly takes the shortest remaining pair of the separation-sorted list
and deletes every remaining pair touching either of its rows. -/
theorem stageC_round_equals_sequential (pairs : List CrossPair) (x : Nat × Nat) :
    x ∈ mergeMatches pairs ↔
      x ∈ specSequentialMatch ((mergeSorted pairs).map (fun p => (cpIdx1 p, cpIdx2 p))) :=
  roundMatch_mem_iff _ _ le_rfl x

/-- C4: the matching of `merge_catalogues` is a partial injection — each
cat_1 row index and each cat_2 row index occurs in at most one committed
pair — and it is maximal: every cross pair returned by the oracle shares a
row with some committed pair. -/
theorem stageC_partial_injection_maximal (pairs : List CrossPair) :
    (mergeMatchIdx1 pairs).Nodup ∧ (mergeMatchIdx2 pairs).Nodup ∧
      ∀ p ∈ pairs, ∃ m ∈ mergeMatches pairs,
        m.1 = cpIdx1 p ∨ m.2 = cpIdx2 p := by
  refine ⟨?_, ?_, ?_⟩
  · exact List.pairwise_map.mpr ((mergeMatches_pairwise pairs).imp
      (fun h => (touches_false_iff.mp h).1))
  · exact List.pairwise_map.mpr ((mergeMatches_pairwise pairs).imp
      (fun h => (touches_false_iff.mp h).2))
  · intro p hp
    have hmem : (cpIdx1 p, cpIdx2 p) ∈
        (mergeSorted pairs).map (fun r => (cpIdx1 r, cpIdx2 r)) :=
      List.mem_map.mpr ⟨p, (mem_ssortBy _ p pairs).mpr hp, rfl⟩
    obtain ⟨m, hm, htm⟩ := roundMatch_maximal _ _ le_rfl _ hmem
    exact ⟨m, hm, of_decide_eq_true htm⟩

/-! ### Table toolkit -/

/-- Indexing a map over a range. -/
theorem getD_map_range {β : Type} (n i : Nat) (f : Nat → β) (d : β) :
    ((List.range n).map f).getD i d = if i < n then f i else d := by
  rw [List.getD_eq_getElem?_getD, List.getElem?_map]
  by_cases h : i < n
  · rw [List.getElem?_range h]
    simp [h]
  · have hle : (List.range n).length ≤ i := by
      simp only [List.length_range]
      omega
    rw [List.getElem?_eq_none hle]
    simp [h]

/-- Indexing a map within range. -/
theorem getD_map_of_lt {α β : Type} (f : α → β) (l : List α) (i : Nat)
    (h : i < l.length) (d : β) (d' : α) :
    (l.map f).getD i d = f (l.getD i d') := by
  rw [List.getD_eq_getElem?_getD, List.getElem?_map, List.getElem?_eq_getElem h,
    List.getD_eq_getElem?_getD, List.getElem?_eq_getElem h]
  simp

/-- Column lookup commutes with a name-preserving map of the columns. -/
theorem find?_map_name (f : Column → Column) (hf : ∀ c, (f c).name = c.name)
    (nm : String) (l : List Column) :
    (l.map f).find? (fun c => decide (c.name = nm)) =
      (l.find? (fun c => decide (c.name = nm))).map f := by
  induction l with
  | nil => rfl
  | cons c cs ih =>
    by_cases h : c.name = nm
    · rw [List.map_cons, List.find?_cons_of_pos _ (by simp [hf, h]),
        List.find?_cons_of_pos _ (by simp [h])]
      rfl
    · rw [List.map_cons, List.find?_cons_of_neg _ (by simp [hf, h]),
        List.find?_cons_of_neg _ (by simp [h]), ih]

/-- Column lookup in a table built by a name-preserving column map. -/
theorem getCol_mapCols (t : Table) (f : Column → Column)
    (hf : ∀ c, (f c).name = c.name) (nm : String) :
    (Table.mk (t.cols.map f)).getCol nm = (t.getCol nm).map f :=
  find?_map_name f hf nm t.cols

/-- Replacing one named column does not affect lookups of other names. -/
theorem find?_replaceFirst_ne (f : Column → Column) (hf : ∀ c, (f c).name = c.name)
    (nm nm' : String) (hne : nm' ≠ nm) (l : List Column) :
    (replaceFirstCol nm f l).find? (fun c => decide (c.name = nm')) =
      l.find? (fun c => decide (c.name = nm')) := by
  induction l with
  | nil => rfl
  | cons c cs ih =>
    rw [replaceFirstCol]
    by_cases h : c.name = nm
    · rw [if_pos h,
        List.find?_cons_of_neg _
          (by simp only [hf, h, decide_eq_true_eq]; exact fun hh => hne hh.symm),
        List.find?_cons_of_neg _
          (by simp only [h, decide_eq_true_eq]; exact fun hh => hne hh.symm)]
    · by_cases h2 : c.name = nm'
      · rw [if_neg h, List.find?_cons_of_pos _ (by simp [h2]),
          List.find?_cons_of_pos _ (by simp [h2])]
      · rw [if_neg h, List.find?_cons_of_neg _ (by simp [h2]),
          List.find?_cons_of_neg _ (by simp [h2]), ih]

/-- Replacing one named column maps its lookup. -/
theorem find?_replaceFirst_eq (f : Column → Column) (hf : ∀ c, (f c).name = c.name)
    (nm : String) (l : List Column) :
    (replaceFirstCol nm f l).find? (fun c => decide (c.name = nm)) =
      (l.find? (fun c => decide (c.name = nm))).map f := by
  induction l with
  | nil => rfl
  | cons c cs ih =>
    rw [replaceFirstCol]
    by_cases h : c.name = nm
    · rw [if_pos h, List.find?_cons_of_pos _ (by simp [hf, h]),
        List.find?_cons_of_pos _ (by simp [h])]
      rfl
    · rw [if_neg h, List.find?_cons_of_neg _ (by simp [h]),
        List.find?_cons_of_neg _ (by simp [h]), ih]

/-- Lookup of an unrelated name after a name-preserving column update. -/
theorem getCol_modifyCol_ne (t : Table) (nm nm' : String) (f : Column → Column)
    (hf : ∀ c, (f c).name = c.name) (hne : nm' ≠ nm) :
    (t.modifyCol nm f).getCol nm' = t.getCol nm' :=
  find?_replaceFirst_ne f hf nm nm' hne t.cols

/-- Lookup of the updated name after a name-preserving column update. -/
theorem getCol_modifyCol_eq (t : Table) (nm : String) (f : Column → Column)
    (hf : ∀ c, (f c).name = c.name) :
    (t.modifyCol nm f).getCol nm = (t.getCol nm).map f :=
  find?_replaceFirst_eq f hf nm t.cols

/-- Appending a differently-named column does not affect a lookup. -/
theorem getCol_addColumn_ne (t : Table) (c : Column) (nm : String)
    (h : c.name ≠ nm) : (t.addColumn c).getCol nm = t.getCol nm := by
  show (t.cols ++ [c]).find? _ = _
  rw [List.find?_append, List.find?_cons_of_neg _ (by simp [h]), List.find?_nil,
    Option.or_none]
  rfl

/-- Appending a column with a fresh name makes it the lookup result. -/
theorem getCol_addColumn_of_none (t : Table) (c : Column) (nm : String)
    (h : t.getCol nm = none) (hc : c.name = nm) :
    (t.addColumn c).getCol nm = some c := by
  show (t.cols ++ [c]).find? _ = _
  rw [List.find?_append]
  have h' : t.cols.find? (fun c => decide (c.name = nm)) = none := h
  rw [h', List.find?_cons_of_pos _ (by simp [hc]), Option.none_or]

/-- A lookup is absent exactly when the name is not a column name. -/
theorem getCol_eq_none_iff (t : Table) (nm : String) :
    t.getCol nm = none ↔ nm ∉ t.colnames := by
  unfold Table.getCol Table.colnames
  rw [List.find?_eq_none]
  simp [List.mem_map]

/-- A found column is a column of the table. -/
theorem mem_of_getCol_eq_some {t : Table} {nm : String} {c : Column}
    (h : t.getCol nm = some c) : c ∈ t.cols :=
  List.mem_of_find?_eq_some h

/-- A found column bears the looked-up name. -/
theorem name_of_getCol_eq_some {t : Table} {nm : String} {c : Column}
    (h : t.getCol nm = some c) : c.name = nm := by
  have := List.find?_some h
  simpa using this

/-- Row count is preserved by a cell-count-preserving column map. -/
theorem nrows_mk_map (f : Column → Column)
    (hf : ∀ c, (f c).data.length = c.data.length) (t : Table) :
    (Table.mk (t.cols.map f)).nrows = t.nrows := by
  rcases t with ⟨cols⟩
  cases cols with
  | nil => rfl
  | cons c cs => simp [Table.nrows, hf]

/-- Row count is preserved by a cell-count-preserving named update. -/
theorem nrows_modifyCol (t : Table) (nm : String) (f : Column → Column)
    (hf : ∀ c, (f c).data.length = c.data.length) :
    (t.modifyCol nm f).nrows = t.nrows := by
  rcases t with ⟨cols⟩
  cases cols with
  | nil => rfl
  | cons c cs =>
    show (Table.mk (replaceFirstCol nm f (c :: cs))).nrows = _
    rw [replaceFirstCol]
    by_cases h : c.name = nm
    · rw [if_pos h]
      simp [Table.nrows, hf]
    · rw [if_neg h]
      simp [Table.nrows]

/-- Row count after appending a row-count-compatible column. -/
theorem nrows_addColumn (t : Table) (c : Column) (h : c.data.length = t.nrows) :
    (t.addColumn c).nrows = t.nrows := by
  rcases t with ⟨cols⟩
  cases cols with
  | nil => simpa [Table.addColumn, Table.nrows] using h
  | cons d ds => rfl

/-- Row count of a row selection on a table that has columns. -/
theorem nrows_selectRows (t : Table) (idxs : List Nat) (h : t.cols ≠ []) :
    (t.selectRows idxs).nrows = idxs.length := by
  rcases t with ⟨cols⟩
  cases cols with
  | nil => exact absurd rfl h
  | cons c cs => simp [Table.selectRows, Table.nrows]

/-- Row selection always yields a well-formed table. -/
theorem WF_selectRows (t : Table) (idxs : List Nat) : (t.selectRows idxs).WF := by
  rcases t with ⟨cols⟩
  cases cols with
  | nil =>
    intro c hc
    simp [Table.selectRows] at hc
  | cons d ds =>
    intro c hc
    simp only [Table.selectRows, List.mem_map] at hc
    obtain ⟨c0, hc0, rfl⟩ := hc
    simp [Table.nrows, Table.selectRows]

/-- Members of a first-match column replacement. -/
theorem mem_replaceFirstCol {nm : String} {f : Column → Column} {c' : Column} :
    ∀ {l : List Column}, c' ∈ replaceFirstCol nm f l → c' ∈ l ∨ ∃ c ∈ l, c' = f c := by
  intro l
  induction l with
  | nil => intro h; simp [replaceFirstCol] at h
  | cons c cs ih =>
    intro h
    rw [replaceFirstCol] at h
    by_cases hc : c.name = nm
    · rw [if_pos hc] at h
      rcases List.mem_cons.mp h with rfl | hmem
      · exact Or.inr ⟨c, by simp, rfl⟩
      · exact Or.inl (by simp [hmem])
    · rw [if_neg hc] at h
      rcases List.mem_cons.mp h with rfl | hmem
      · exact Or.inl (by simp)
      · rcases ih hmem with h1 | ⟨c0, hc0, rfl⟩
        · exact Or.inl (by simp [h1])
        · exact Or.inr ⟨c0, by simp [hc0], rfl⟩

/-- Well-formedness is preserved by a cell-count-preserving column map. -/
theorem WF_mapCols (t : Table) (f : Column → Column)
    (hf : ∀ c, (f c).data.length = c.data.length) (h : t.WF) :
    (Table.mk (t.cols.map f)).WF := by
  intro c hc
  rw [nrows_mk_map f hf]
  obtain ⟨c0, hc0, rfl⟩ := List.mem_map.mp hc
  rw [hf c0]
  exact h c0 hc0

/-- Well-formedness is preserved by a cell-count-preserving named update. -/
theorem WF_modifyCol (t : Table) (nm : String) (f : Column → Column)
    (hf : ∀ c, (f c).data.length = c.data.length) (h : t.WF) :
    (t.modifyCol nm f).WF := by
  intro c hc
  rw [nrows_modifyCol t nm f hf]
  rcases mem_replaceFirstCol hc with h1 | ⟨c0, hc0, rfl⟩
  · exact h c h1
  · rw [hf c0]
    exact h c0 hc0

/-- Well-formedness is preserved by appending a compatible column. -/
theorem WF_addColumn (t : Table) (c : Column) (hlen : c.data.length = t.nrows)
    (h : t.WF) : (t.addColumn c).WF := by
  intro c' hc'
  rw [nrows_addColumn t c hlen]
  rcases List.mem_append.mp hc' with h1 | h1
  · exact h c' h1
  · simp at h1
    subst h1
    exact hlen

/-- Column names after a name-preserving first-match replacement. -/
theorem map_name_replaceFirst (nm : String) (f : Column → Column)
    (hf : ∀ c, (f c).name = c.name) (l : List Column) :
    (replaceFirstCol nm f l).map Column.name = l.map Column.name := by
  induction l with
  | nil => rfl
  | cons c cs ih =>
    rw [replaceFirstCol]
    by_cases h : c.name = nm
    · rw [if_pos h]
      simp [hf]
    · rw [if_neg h]
      simp [ih]

/-- Column names are unchanged by a name-preserving named update. -/
theorem colnames_modifyCol (t : Table) (nm : String) (f : Column → Column)
    (hf : ∀ c, (f c).name = c.name) :
    (t.modifyCol nm f).colnames = t.colnames :=
  map_name_replaceFirst nm f hf t.cols

/-- Column names are unchanged by a name-preserving column map. -/
theorem colnames_mapCols (t : Table) (f : Column → Column)
    (hf : ∀ c, (f c).name = c.name) :
    (Table.mk (t.cols.map f)).colnames = t.colnames := by
  unfold Table.colnames
  show (t.cols.map f).map Column.name = _
  rw [List.map_map]
  exact List.map_congr_left (fun c _ => hf c)

/-- Column names after appending a column. -/
theorem colnames_addColumn (t : Table) (c : Column) :
    (t.addColumn c).colnames = t.colnames ++ [c.name] := by
  unfold Table.colnames
  show (t.cols ++ [c]).map Column.name = _
  rw [List.map_append]
  rfl

/-- Length of a coordinate list of a well-formed table with both columns. -/
theorem coordsOf_length (t : Table) (ra dec : String) (hWF : t.WF)
    (ha : (t.getCol ra).isSome = true) (hb : (t.getCol dec).isSome = true) :
    (t.coordsOf ra dec).length = t.nrows := by
  obtain ⟨a, ha'⟩ := Option.isSome_iff_exists.mp ha
  obtain ⟨b, hb'⟩ := Option.isSome_iff_exists.mp hb
  unfold Table.coordsOf
  rw [ha', hb', List.length_zip]
  have h1 := hWF a (mem_of_getCol_eq_some ha')
  have h2 := hWF b (mem_of_getCol_eq_some hb')
  omega

/-! ### Deduplication lemmas -/

/-- `sqNear` is symmetric. -/
theorem sqNear_symm (r2 : ℚ) : ∀ a b, sqNear r2 a b = sqNear r2 b a := by
  rintro ⟨x | x | x | _, y | y | y | _⟩ ⟨z | z | z | _, w | w | w | _⟩ <;>
    simp only [sqNear] <;> try rfl
  rw [decide_eq_decide]
  constructor <;> intro h <;> nlinarith [h]

/-- Stable insertion adds one element. -/
theorem insB_length {α : Type} (lt : α → α → Bool) (a : α) (l : List α) :
    (insB lt a l).length = l.length + 1 := by
  induction l with
  | nil => rfl
  | cons b t ih =>
    rw [insB]
    by_cases h : lt b a = true
    · simp [h, ih]
    · simp [h]

/-- The stable sort preserves length. -/
theorem ssortBy_length {α : Type} (lt : α → α → Bool) (l : List α) :
    (ssortBy lt l).length = l.length := by
  induction l with
  | nil => rfl
  | cons a t ih =>
    rw [ssortBy, insB_length, ih]
    rfl

/-- `setTrueData` preserves the cell count. -/
theorem setTrueData_length (idxs : List Nat) (data : List Val) :
    (setTrueData idxs data).length = data.length := by
  simp [setTrueData]

/-- Indexing a replicate within range. -/
theorem getD_replicate_lt {α : Type} (n i : Nat) (x d : α) (h : i < n) :
    (List.replicate n x).getD i d = x := by
  rw [List.getD_eq_getElem?_getD, List.getElem?_replicate]
  simp [h]

/-- Membership in the self-match output. -/
theorem mem_searchSelf {near : Val × Val → Val × Val → Bool}
    {coords : List (Val × Val)} {i j : Nat} :
    (i, j) ∈ searchSelf near coords ↔
      i < coords.length ∧ j < coords.length ∧
        near (coordAt coords i) (coordAt coords j) = true := by
  unfold searchSelf
  simp only [List.mem_flatMap, List.mem_map, List.mem_filter, List.mem_range,
    Prod.mk.injEq]
  constructor
  · rintro ⟨a, ha, b, ⟨hb, hnear⟩, rfl, rfl⟩
    exact ⟨ha, hb, hnear⟩
  · rintro ⟨hi, hj, hnear⟩
    exact ⟨i, hi, j, ⟨hj, hnear⟩, rfl, rfl⟩

/-- Membership in the masked self-match pair list. -/
theorem mem_dedupPairs {near : Val × Val → Val × Val → Bool}
    {coords : List (Val × Val)} {i j : Nat} :
    (i, j) ∈ dedupPairs near coords ↔
      i < coords.length ∧ j < coords.length ∧ i ≠ j ∧
        near (coordAt coords i) (coordAt coords j) = true := by
  unfold dedupPairs
  rw [List.mem_filter, mem_searchSelf]
  simp only [decide_eq_true_eq]
  tauto

/-- Membership in the removal index list. -/
theorem mem_dedupRemoveIdx {prs : List (Nat × Nat)} {i : Nat} :
    i ∈ dedupRemoveIdx prs ↔ ∃ j, (i, j) ∈ prs ∧ j < i := by
  unfold dedupRemoveIdx
  simp only [List.mem_map, List.mem_filter]
  constructor
  · rintro ⟨⟨a, b⟩, ⟨hmem, hgt⟩, rfl⟩
    exact ⟨b, hmem, by simpa using hgt⟩
  · rintro ⟨j, hmem, hlt⟩
    exact ⟨(i, j), ⟨hmem, by simpa using hlt⟩, rfl⟩

/-- Membership in the kept index list. -/
theorem mem_dedupKeepIdx {n : Nat} {prs : List (Nat × Nat)} {i : Nat} :
    i ∈ dedupKeepIdx n prs ↔ i < n ∧ i ∉ dedupRemoveIdx prs := by
  unfold dedupKeepIdx
  rw [List.mem_filter]
  simp [List.mem_range]

/-- Core removal rule: an index is kept exactly when no lower index is
within radius of it (in oracle orientation kept-to-lower). -/
theorem mem_dedupKeepIdx_iff (near : Val × Val → Val × Val → Bool)
    (C : List (Val × Val)) (n : Nat) (hn : C.length = n) (i : Nat) :
    i ∈ dedupKeepIdx n (dedupPairs near C) ↔
      i < n ∧ ∀ j < i, near (coordAt C i) (coordAt C j) = false := by
  rw [mem_dedupKeepIdx]
  constructor
  · rintro ⟨hi, hnot⟩
    refine ⟨hi, fun j hj => ?_⟩
    by_contra hcon
    rw [Bool.not_eq_false] at hcon
    exact hnot (mem_dedupRemoveIdx.mpr
      ⟨j, mem_dedupPairs.mpr ⟨by omega, by omega, by omega, hcon⟩, hj⟩)
  · rintro ⟨hi, hall⟩
    refine ⟨hi, fun hrem => ?_⟩
    obtain ⟨j, hpair, hj⟩ := mem_dedupRemoveIdx.mp hrem
    have h4 := (mem_dedupPairs.mp hpair).2.2.2
    rw [hall j hj] at h4
    cases h4

/-- Row count is unchanged by a unit assignment. -/
theorem nrows_setUnit (t : Table) (nm u : String) : (t.setUnit nm u).nrows = t.nrows :=
  nrows_modifyCol t nm _ (fun c => rfl)

/-- Row count is unchanged by a fill-value assignment. -/
theorem nrows_setFill (t : Table) (nm : String) (v : Val) :
    (t.setFill nm v).nrows = t.nrows :=
  nrows_modifyCol t nm _ (fun c => rfl)

/-- Row count is unchanged by flag assignment at indices. -/
theorem nrows_setTrueAt (t : Table) (nm : String) (idxs : List Nat) :
    (t.setTrueAt nm idxs).nrows = t.nrows :=
  nrows_modifyCol t nm _ (fun c => setTrueData_length _ _)

/-- Well-formedness survives a unit assignment. -/
theorem WF_setUnit (t : Table) (nm u : String) (h : t.WF) : (t.setUnit nm u).WF :=
  WF_modifyCol t nm _ (fun c => rfl) h

/-- Column names are unchanged by a unit assignment. -/
theorem colnames_setUnit (t : Table) (nm u : String) :
    (t.setUnit nm u).colnames = t.colnames :=
  colnames_modifyCol t nm _ (fun c => rfl)

/-- The duplication-flag count matches the table. -/
theorem nrows_dedupFlagged (t : Table) (flag : String) (prs : List (Nat × Nat)) :
    (dedupFlagged t flag prs).nrows = t.nrows := by
  unfold dedupFlagged
  rw [nrows_setTrueAt, nrows_setFill, nrows_addColumn _ _ (by simp)]

/-- Row count is unchanged by a row reversal. -/
theorem nrows_reverseRows (t : Table) : t.reverseRows.nrows = t.nrows :=
  nrows_mk_map _ (fun c => by simp) t

/-- Row count is unchanged by a sort. -/
theorem nrows_sortRows (t : Table) (keys : List String) :
    (t.sortRows keys).nrows = t.nrows := by
  unfold Table.sortRows
  rcases ht : t.cols with _ | ⟨c, cs⟩
  · simp [Table.selectRows, Table.nrows, ht]
  · rw [nrows_selectRows _ _ (by rw [ht]; simp), ssortBy_length, List.length_range]

/-- Row count is unchanged by the preparation step. -/
theorem nrows_dedupPrep (table : Table) (ra_col dec_col : String)
    (sort_col : Option (List String)) (reverse : Bool) :
    (dedupPrep table ra_col dec_col sort_col reverse).nrows = table.nrows := by
  simp only [dedupPrep]
  rw [nrows_setUnit, nrows_setUnit]
  cases sort_col <;> cases reverse <;>
    simp [nrows_reverseRows, nrows_sortRows]

/-- Well-formedness survives a row reversal. -/
theorem WF_reverseRows (t : Table) (h : t.WF) : t.reverseRows.WF :=
  WF_mapCols t _ (fun c => by simp) h

/-- Well-formedness survives the preparation step. -/
theorem WF_dedupPrep (table : Table) (ra_col dec_col : String)
    (sort_col : Option (List String)) (reverse : Bool) (h : table.WF) :
    (dedupPrep table ra_col dec_col sort_col reverse).WF := by
  simp only [dedupPrep]
  apply WF_setUnit
  apply WF_setUnit
  cases sort_col with
  | none =>
    cases reverse with
    | false => exact h
    | true => exact WF_reverseRows _ h
  | some keys =>
    cases reverse with
    | false => exact WF_selectRows _ _
    | true => exact WF_reverseRows _ (WF_selectRows _ _)

/-- Presence of a column is invariant under a name-preserving update. -/
theorem isSome_getCol_modifyCol (t : Table) (nm nm' : String) (f : Column → Column)
    (hf : ∀ c, (f c).name = c.name) :
    ((t.modifyCol nm' f).getCol nm).isSome = (t.getCol nm).isSome := by
  by_cases h : nm = nm'
  · subst h
    rw [getCol_modifyCol_eq _ _ _ hf]
    cases t.getCol nm <;> rfl
  · rw [getCol_modifyCol_ne _ _ _ _ hf h]

/-- Presence of a column is invariant under a name-preserving column map. -/
theorem isSome_getCol_mapCols (t : Table) (f : Column → Column)
    (hf : ∀ c, (f c).name = c.name) (nm : String) :
    ((Table.mk (t.cols.map f)).getCol nm).isSome = (t.getCol nm).isSome := by
  rw [getCol_mapCols _ _ hf]
  cases t.getCol nm <;> rfl

/-- Presence of a column is invariant under a unit assignment. -/
theorem isSome_getCol_setUnit (t : Table) (nm nm' u : String) :
    ((t.setUnit nm' u).getCol nm).isSome = (t.getCol nm).isSome :=
  isSome_getCol_modifyCol t nm nm' _ (fun c => rfl)

/-- Presence of a column is invariant under a row reversal. -/
theorem isSome_getCol_reverseRows (t : Table) (nm : String) :
    (t.reverseRows.getCol nm).isSome = (t.getCol nm).isSome :=
  isSome_getCol_mapCols t (fun c => { c with data := c.data.reverse })
    (fun c => rfl) nm

/-- Presence of a column is invariant under a row selection. -/
theorem isSome_getCol_selectRows (t : Table) (idxs : List Nat) (nm : String) :
    ((t.selectRows idxs).getCol nm).isSome = (t.getCol nm).isSome :=
  isSome_getCol_mapCols t
    (fun c => { c with data := idxs.map (fun i => c.data.getD i Val.masked) })
    (fun c => rfl) nm

/-- Presence of a column is invariant under a sort. -/
theorem isSome_getCol_sortRows (t : Table) (keys : List String) (nm : String) :
    ((t.sortRows keys).getCol nm).isSome = (t.getCol nm).isSome :=
  isSome_getCol_selectRows t _ nm

/-- Presence of a column is invariant under the preparation step. -/
theorem isSome_getCol_dedupPrep (table : Table) (ra_col dec_col : String)
    (sort_col : Option (List String)) (reverse : Bool) (nm : String) :
    ((dedupPrep table ra_col dec_col sort_col reverse).getCol nm).isSome =
      (table.getCol nm).isSome := by
  simp only [dedupPrep]
  rw [isSome_getCol_setUnit, isSome_getCol_setUnit]
  cases sort_col <;> cases reverse <;>
    simp [isSome_getCol_reverseRows, isSome_getCol_sortRows]

/-- Column names are unchanged by a row selection. -/
theorem colnames_selectRows (t : Table) (idxs : List Nat) :
    (t.selectRows idxs).colnames = t.colnames :=
  colnames_mapCols t _ (fun c => rfl)

/-- Column names are unchanged by a row reversal. -/
theorem colnames_reverseRows (t : Table) :
    t.reverseRows.colnames = t.colnames :=
  colnames_mapCols t _ (fun c => rfl)

/-- Column names are unchanged by a sort. -/
theorem colnames_sortRows (t : Table) (keys : List String) :
    (t.sortRows keys).colnames = t.colnames :=
  colnames_selectRows t _

/-- Column names are unchanged by the preparation step. -/
theorem colnames_dedupPrep (table : Table) (ra_col dec_col : String)
    (sort_col : Option (List String)) (reverse : Bool) :
    (dedupPrep table ra_col dec_col sort_col reverse).colnames = table.colnames := by
  simp only [dedupPrep]
  rw [colnames_setUnit, colnames_setUnit]
  cases sort_col <;> cases reverse <;>
    simp [colnames_reverseRows, colnames_sortRows]

/-- The freshly added duplication-flag column as found in the flagged table. -/
theorem getCol_dedupFlagged (t : Table) (flag : String) (prs : List (Nat × Nat))
    (hfree : t.getCol flag = none) :
    (dedupFlagged t flag prs).getCol flag =
      some { name := flag, unit := none, fill := some (Val.bool false)
             data := setTrueData (prs.map Prod.fst)
               (List.replicate t.nrows (Val.bool false)) } := by
  unfold dedupFlagged Table.setTrueAt Table.setFill
  rw [getCol_modifyCol_eq _ _ _ (by intro c; rfl),
    getCol_modifyCol_eq _ _ _ (by intro c; rfl),
    getCol_addColumn_of_none _ _ _ hfree rfl]
  rfl

/-- Cell values of the duplication flag: `true` exactly at indices appearing
on the first side of a surviving pair. -/
theorem cellD_dedupFlagged (t : Table) (flag : String) (prs : List (Nat × Nat))
    (hfree : t.getCol flag = none) (i : Nat) (hi : i < t.nrows) :
    (dedupFlagged t flag prs).cellD flag i =
      (if i ∈ prs.map Prod.fst then Val.bool true else Val.bool false) := by
  unfold Table.cellD Table.colData
  rw [getCol_dedupFlagged t flag prs hfree]
  show (setTrueData (prs.map Prod.fst)
    (List.replicate t.nrows (Val.bool false))).getD i Val.masked = _
  unfold setTrueData
  rw [getD_map_range, List.length_replicate, if_pos hi]
  by_cases h : i ∈ prs.map Prod.fst
  · rw [if_pos h, if_pos h]
  · rw [if_neg h, if_neg h, getD_replicate_lt _ _ _ _ hi]

/-- Column lookup in a row selection. -/
theorem getCol_selectRows (t : Table) (idxs : List Nat) (nm : String) :
    (t.selectRows idxs).getCol nm =
      (t.getCol nm).map
        (fun c => { c with data := idxs.map (fun i => c.data.getD i Val.masked) }) :=
  getCol_mapCols t
    (fun c => { c with data := idxs.map (fun i => c.data.getD i Val.masked) })
    (fun c => rfl) nm

/-- Coordinate access into a zip of two cell lists. -/
theorem coordAt_zip (A B : List Val) (i : Nat) (hA : i < A.length)
    (hB : i < B.length) :
    coordAt (A.zip B) i = (A.getD i Val.masked, B.getD i Val.masked) := by
  unfold coordAt mCoord
  have hz : i < (A.zip B).length := by
    rw [List.length_zip]
    omega
  rw [List.getD_eq_getElem _ _ hz, List.getD_eq_getElem _ _ hA,
    List.getD_eq_getElem _ _ hB, List.getElem_zip]

/-- The coordinate list depends only on the data of the position columns. -/
theorem coordsOf_eq_matchData (t : Table) (ra dec : String) :
    t.coordsOf ra dec =
      (match (t.getCol ra).map Column.data, (t.getCol dec).map Column.data with
        | some da, some db => da.zip db
        | _, _ => []) := by
  unfold Table.coordsOf
  rcases t.getCol ra <;> rcases t.getCol dec <;> rfl

/-- The data view of a lookup is invariant under a data-preserving update. -/
theorem map_data_getCol_modifyCol (t : Table) (nm : String) (f : Column → Column)
    (hfn : ∀ c, (f c).name = c.name) (hfd : ∀ c, (f c).data = c.data) (x : String) :
    ((t.modifyCol nm f).getCol x).map Column.data = (t.getCol x).map Column.data := by
  by_cases h : x = nm
  · subst h
    rw [getCol_modifyCol_eq _ _ _ hfn, Option.map_map]
    have hcomp : Column.data ∘ f = Column.data := funext hfd
    rw [hcomp]
  · rw [getCol_modifyCol_ne _ _ _ _ hfn h]

/-- Coordinates are invariant under a data-preserving named update. -/
theorem coordsOf_modifyCol_dataPres (t : Table) (nm : String) (f : Column → Column)
    (hfn : ∀ c, (f c).name = c.name) (hfd : ∀ c, (f c).data = c.data)
    (ra dec : String) :
    (t.modifyCol nm f).coordsOf ra dec = t.coordsOf ra dec := by
  rw [coordsOf_eq_matchData, coordsOf_eq_matchData,
    map_data_getCol_modifyCol _ _ _ hfn hfd, map_data_getCol_modifyCol _ _ _ hfn hfd]

/-- Coordinates are invariant under a unit assignment. -/
theorem coordsOf_setUnit (t : Table) (nm u ra dec : String) :
    (t.setUnit nm u).coordsOf ra dec = t.coordsOf ra dec :=
  coordsOf_modifyCol_dataPres t nm (fun c => { c with unit := some u })
    (fun c => rfl) (fun c => rfl) ra dec

/-- Zipping two reversed lists of equal length reverses the zip. -/
theorem zip_reverse_of_length_eq {α β : Type} :
    ∀ (a : List α) (b : List β), a.length = b.length →
      a.reverse.zip b.reverse = (a.zip b).reverse := by
  intro a
  induction a with
  | nil =>
    intro b h
    cases b with
    | nil => rfl
    | cons y ys => simp at h
  | cons x xs ih =>
    intro b h
    cases b with
    | nil => simp at h
    | cons y ys =>
      simp only [List.reverse_cons]
      have h' : xs.length = ys.length := by
        simp only [List.length_cons] at h
        omega
      rw [List.zip_append (by simp [h']), ih ys h']
      simp [List.zip_cons_cons, List.reverse_cons]

/-- Coordinate access into a reversed coordinate list. -/
theorem coordAt_reverse (C : List (Val × Val)) (j : Nat) (h : j < C.length) :
    coordAt C.reverse j = coordAt C (C.length - 1 - j) := by
  unfold coordAt
  rw [List.getD_eq_getElem?_getD, List.getD_eq_getElem?_getD,
    List.getElem?_reverse h]

/-- Reversing the rows reverses the coordinate list. -/
theorem coordsOf_reverseRows (t : Table) (ra dec : String) (hWF : t.WF)
    (hra : (t.getCol ra).isSome = true) (hdec : (t.getCol dec).isSome = true) :
    t.reverseRows.coordsOf ra dec = (t.coordsOf ra dec).reverse := by
  obtain ⟨a, ha⟩ := Option.isSome_iff_exists.mp hra
  obtain ⟨b, hb⟩ := Option.isSome_iff_exists.mp hdec
  have hga : t.reverseRows.getCol ra =
      some { a with data := a.data.reverse } := by
    show (Table.mk (t.cols.map (fun c => { c with data := c.data.reverse }))).getCol ra = _
    rw [getCol_mapCols t (fun c => { c with data := c.data.reverse })
      (fun c => rfl) ra, ha]
    rfl
  have hgb : t.reverseRows.getCol dec =
      some { b with data := b.data.reverse } := by
    show (Table.mk (t.cols.map (fun c => { c with data := c.data.reverse }))).getCol dec = _
    rw [getCol_mapCols t (fun c => { c with data := c.data.reverse })
      (fun c => rfl) dec, hb]
    rfl
  unfold Table.coordsOf
  rw [ha, hb, hga, hgb]
  exact zip_reverse_of_length_eq a.data b.data
    (by rw [hWF a (mem_of_getCol_eq_some ha), hWF b (mem_of_getCol_eq_some hb)])

/-- First-match replacement preserves the column count. -/
theorem length_replaceFirstCol (nm : String) (f : Column → Column)
    (l : List Column) : (replaceFirstCol nm f l).length = l.length := by
  induction l with
  | nil => rfl
  | cons c cs ih =>
    rw [replaceFirstCol]
    by_cases h : c.name = nm
    · rw [if_pos h]
      rfl
    · rw [if_neg h]
      simp [ih]

/-- The flagged table always has at least one column. -/
theorem cols_dedupFlagged_ne_nil (t : Table) (flag : String)
    (prs : List (Nat × Nat)) : (dedupFlagged t flag prs).cols ≠ [] := by
  unfold dedupFlagged Table.setTrueAt Table.setFill Table.modifyCol Table.addColumn
  intro h
  have hlen := congrArg List.length h
  rw [length_replaceFirstCol, length_replaceFirstCol] at hlen
  simp at hlen

/-- With no surviving pair every index is kept. -/
theorem dedupKeepIdx_nil (n : Nat) : dedupKeepIdx n [] = List.range n := by
  simp [dedupKeepIdx, dedupRemoveIdx]

/-- Adding the flag column does not disturb other columns. -/
theorem getCol_dedupFlagged_ne (t : Table) (flag : String)
    (prs : List (Nat × Nat)) (nm : String) (hne : nm ≠ flag) :
    (dedupFlagged t flag prs).getCol nm = t.getCol nm := by
  unfold dedupFlagged Table.setTrueAt Table.setFill
  rw [getCol_modifyCol_ne _ _ _ _ (by intro c; rfl) hne,
    getCol_modifyCol_ne _ _ _ _ (by intro c; rfl) hne,
    getCol_addColumn_ne _ _ _ (Ne.symm hne)]

/-! ### Claims about `remove_duplicates` -/

/-- C2: after the optional sort/reverse step, a row is removed if and only
if some lower-indexed row of the sorted table is within the given radius of
it; the returned table is the flagged working table restricted to the
surviving indices. -/
theorem dedup_removal_rule (table : Table) (ra_col dec_col : String)
    (near : Val × Val → Val × Val → Bool) (sort_col : Option (List String))
    (reverse : Bool) (flag_name : String)
    (hWF : table.WF)
    (hra : (table.getCol ra_col).isSome = true)
    (hdec : (table.getCol dec_col).isSome = true)
    (hsym : ∀ a b, near a b = near b a) :
    (remove_duplicates table ra_col dec_col near sort_col reverse flag_name).2 =
      (dedupFlagged (dedupPrep table ra_col dec_col sort_col reverse) flag_name
          (dedupPairs near
            ((dedupPrep table ra_col dec_col sort_col reverse).coordsOf ra_col dec_col))).selectRows
        (dedupKeepIdx table.nrows
          (dedupPairs near
            ((dedupPrep table ra_col dec_col sort_col reverse).coordsOf ra_col dec_col))) ∧
    ∀ i, i ∈ dedupKeepIdx table.nrows
          (dedupPairs near
            ((dedupPrep table ra_col dec_col sort_col reverse).coordsOf ra_col dec_col)) ↔
        i < table.nrows ∧ ∀ j < i,
          near
            (coordAt ((dedupPrep table ra_col dec_col sort_col reverse).coordsOf ra_col dec_col) j)
            (coordAt ((dedupPrep table ra_col dec_col sort_col reverse).coordsOf ra_col dec_col) i)
            = false := by
  have hlen : ((dedupPrep table ra_col dec_col sort_col reverse).coordsOf ra_col dec_col).length
      = table.nrows := by
    rw [coordsOf_length _ _ _ (WF_dedupPrep _ _ _ _ _ hWF)
      (by rw [isSome_getCol_dedupPrep]; exact hra)
      (by rw [isSome_getCol_dedupPrep]; exact hdec),
      nrows_dedupPrep]
  constructor
  · simp only [remove_duplicates]
    rw [nrows_dedupFlagged, nrows_dedupPrep]
  · intro i
    rw [mem_dedupKeepIdx_iff near _ table.nrows hlen i]
    constructor
    · rintro ⟨hi, hall⟩
      exact ⟨hi, fun j hj => by rw [hsym]; exact hall j hj⟩
    · rintro ⟨hi, hall⟩
      exact ⟨hi, fun j hj => by rw [hsym]; exact hall j hj⟩

/-- Witness for C2: the removal rule evaluated at a concrete catalogue. -/
theorem dedup_removal_rule_witness :
    (exT.WF ∧ (exT.getCol "ra").isSome = true ∧ (exT.getCol "dec").isSome = true ∧
      (∀ a b, sqNear 1 a b = sqNear 1 b a)) ∧
    ((remove_duplicates exT "ra" "dec" (sqNear 1) none false "flag_cleaned").2 =
      (dedupFlagged (dedupPrep exT "ra" "dec" none false) "flag_cleaned"
          (dedupPairs (sqNear 1)
            ((dedupPrep exT "ra" "dec" none false).coordsOf "ra" "dec"))).selectRows
        (dedupKeepIdx exT.nrows
          (dedupPairs (sqNear 1)
            ((dedupPrep exT "ra" "dec" none false).coordsOf "ra" "dec"))) ∧
    ∀ i, i ∈ dedupKeepIdx exT.nrows
          (dedupPairs (sqNear 1)
            ((dedupPrep exT "ra" "dec" none false).coordsOf "ra" "dec")) ↔
        i < exT.nrows ∧ ∀ j < i,
          sqNear 1
            (coordAt ((dedupPrep exT "ra" "dec" none false).coordsOf "ra" "dec") j)
            (coordAt ((dedupPrep exT "ra" "dec" none false).coordsOf "ra" "dec") i)
            = false) :=
  ⟨⟨by unfold Table.WF; decide, by decide, by decide, sqNear_symm 1⟩,
    dedup_removal_rule exT "ra" "dec" (sqNear 1) none false "flag_cleaned"
      (by unfold Table.WF; decide) (by decide) (by decide) (sqNear_symm 1)⟩

/-- C9: the duplication flag of the working table is `true` exactly at the
(post-sort, pre-removal) indices that are within radius of some other row,
and `false` elsewhere; the returned table is the flagged table restricted
to the surviving indices, so removed rows drop out with their flags. -/
theorem dedup_flag_marks (table : Table) (ra_col dec_col : String)
    (near : Val × Val → Val × Val → Bool) (sort_col : Option (List String))
    (reverse : Bool) (flag_name : String)
    (hWF : table.WF)
    (hra : (table.getCol ra_col).isSome = true)
    (hdec : (table.getCol dec_col).isSome = true)
    (hfree : flag_name ∉ table.colnames)
    (hsym : ∀ a b, near a b = near b a) :
    (∀ i, i < table.nrows →
      (dedupFlagged (dedupPrep table ra_col dec_col sort_col reverse) flag_name
          (dedupPairs near
            ((dedupPrep table ra_col dec_col sort_col reverse).coordsOf ra_col dec_col))).cellD
        flag_name i =
        Val.bool (decide (∃ j, j < table.nrows ∧ j ≠ i ∧
          (near
              (coordAt ((dedupPrep table ra_col dec_col sort_col reverse).coordsOf ra_col dec_col) i)
              (coordAt ((dedupPrep table ra_col dec_col sort_col reverse).coordsOf ra_col dec_col) j)
              = true ∨
            near
              (coordAt ((dedupPrep table ra_col dec_col sort_col reverse).coordsOf ra_col dec_col) j)
              (coordAt ((dedupPrep table ra_col dec_col sort_col reverse).coordsOf ra_col dec_col) i)
              = true)))) ∧
    (remove_duplicates table ra_col dec_col near sort_col reverse flag_name).2 =
      (dedupFlagged (dedupPrep table ra_col dec_col sort_col reverse) flag_name
          (dedupPairs near
            ((dedupPrep table ra_col dec_col sort_col reverse).coordsOf ra_col dec_col))).selectRows
        (dedupKeepIdx
          (dedupFlagged (dedupPrep table ra_col dec_col sort_col reverse) flag_name
            (dedupPairs near
              ((dedupPrep table ra_col dec_col sort_col reverse).coordsOf ra_col dec_col))).nrows
          (dedupPairs near
            ((dedupPrep table ra_col dec_col sort_col reverse).coordsOf ra_col dec_col))) := by
  have hlen : ((dedupPrep table ra_col dec_col sort_col reverse).coordsOf ra_col dec_col).length
      = table.nrows := by
    rw [coordsOf_length _ _ _ (WF_dedupPrep _ _ _ _ _ hWF)
      (by rw [isSome_getCol_dedupPrep]; exact hra)
      (by rw [isSome_getCol_dedupPrep]; exact hdec),
      nrows_dedupPrep]
  constructor
  · intro i hi
    have hfree' : (dedupPrep table ra_col dec_col sort_col reverse).getCol flag_name = none := by
      rw [getCol_eq_none_iff, colnames_dedupPrep]
      exact hfree
    have hiT : i < (dedupPrep table ra_col dec_col sort_col reverse).nrows := by
      rw [nrows_dedupPrep]
      exact hi
    rw [cellD_dedupFlagged _ _ _ hfree' i hiT]
    by_cases h : i ∈ (dedupPairs near
        ((dedupPrep table ra_col dec_col sort_col reverse).coordsOf ra_col dec_col)).map Prod.fst
    · rw [if_pos h]
      congr 1
      symm
      rw [decide_eq_true_eq]
      obtain ⟨p, hp, hfst⟩ := List.mem_map.mp h
      obtain ⟨h1, h2, h3, h4⟩ := mem_dedupPairs.mp (show (p.1, p.2) ∈ _ from hp)
      refine ⟨p.2, by omega, ?_, Or.inl (by rw [← hfst]; exact h4)⟩
      rw [← hfst]
      exact fun he => h3 he.symm
    · rw [if_neg h]
      congr 1
      symm
      rw [decide_eq_false_iff_not]
      rintro ⟨j, hj, hne, hnear | hnear⟩
      · exact h (List.mem_map.mpr ⟨(i, j),
          mem_dedupPairs.mpr ⟨by omega, by omega, Ne.symm hne, hnear⟩, rfl⟩)
      · rw [hsym] at hnear
        exact h (List.mem_map.mpr ⟨(i, j),
          mem_dedupPairs.mpr ⟨by omega, by omega, Ne.symm hne, hnear⟩, rfl⟩)
  · rfl

/-- Witness for C9: the flag characterisation at a concrete catalogue. -/
theorem dedup_flag_marks_witness :
    (exT.WF ∧ (exT.getCol "ra").isSome = true ∧ (exT.getCol "dec").isSome = true ∧
      "flag_cleaned" ∉ exT.colnames ∧
      (∀ a b, sqNear 1 a b = sqNear 1 b a)) ∧
    ((∀ i, i < exT.nrows →
      (dedupFlagged (dedupPrep exT "ra" "dec" none false) "flag_cleaned"
          (dedupPairs (sqNear 1)
            ((dedupPrep exT "ra" "dec" none false).coordsOf "ra" "dec"))).cellD
        "flag_cleaned" i =
        Val.bool (decide (∃ j, j < exT.nrows ∧ j ≠ i ∧
          (sqNear 1
              (coordAt ((dedupPrep exT "ra" "dec" none false).coordsOf "ra" "dec") i)
              (coordAt ((dedupPrep exT "ra" "dec" none false).coordsOf "ra" "dec") j)
              = true ∨
            sqNear 1
              (coordAt ((dedupPrep exT "ra" "dec" none false).coordsOf "ra" "dec") j)
              (coordAt ((dedupPrep exT "ra" "dec" none false).coordsOf "ra" "dec") i)
              = true)))) ∧
    (remove_duplicates exT "ra" "dec" (sqNear 1) none false "flag_cleaned").2 =
      (dedupFlagged (dedupPrep exT "ra" "dec" none false) "flag_cleaned"
          (dedupPairs (sqNear 1)
            ((dedupPrep exT "ra" "dec" none false).coordsOf "ra" "dec"))).selectRows
        (dedupKeepIdx
          (dedupFlagged (dedupPrep exT "ra" "dec" none false) "flag_cleaned"
            (dedupPairs (sqNear 1)
              ((dedupPrep exT "ra" "dec" none false).coordsOf "ra" "dec"))).nrows
          (dedupPairs (sqNear 1)
            ((dedupPrep exT "ra" "dec" none false).coordsOf "ra" "dec")))) :=
  ⟨⟨by unfold Table.WF; decide, by decide, by decide, by decide, sqNear_symm 1⟩,
    dedup_flag_marks exT "ra" "dec" (sqNear 1) none false "flag_cleaned"
      (by unfold Table.WF; decide) (by decide) (by decide) (by decide) (sqNear_symm 1)⟩

/-- C10: the reverse parameter acts unconditionally — with no sort keys,
`reverse=True` makes the run identical to running on the reversed table,
and a row survives exactly when no row of higher original index is within
radius of it (so each surviving row is the one of highest original index
reachable by the elimination, not the lowest). -/
theorem dedup_reverse_unconditional (table : Table) (ra_col dec_col : String)
    (near : Val × Val → Val × Val → Bool) (flag_name : String)
    (hWF : table.WF)
    (hra : (table.getCol ra_col).isSome = true)
    (hdec : (table.getCol dec_col).isSome = true) :
    (remove_duplicates table ra_col dec_col near none true flag_name).2 =
      (remove_duplicates table.reverseRows ra_col dec_col near none false flag_name).2 ∧
    ∀ k, k < table.nrows →
      ((table.nrows - 1 - k) ∈ dedupKeepIdx table.nrows
          (dedupPairs near
            ((dedupPrep table ra_col dec_col none true).coordsOf ra_col dec_col)) ↔
        ∀ m, k < m → m < table.nrows →
          near (coordAt (table.coordsOf ra_col dec_col) k)
            (coordAt (table.coordsOf ra_col dec_col) m) = false) := by
  have hC : (dedupPrep table ra_col dec_col none true).coordsOf ra_col dec_col =
      (table.coordsOf ra_col dec_col).reverse := by
    show (((table.reverseRows).setUnit ra_col "deg").setUnit dec_col "deg").coordsOf
      ra_col dec_col = _
    rw [coordsOf_setUnit, coordsOf_setUnit, coordsOf_reverseRows _ _ _ hWF hra hdec]
  have hlen0 : (table.coordsOf ra_col dec_col).length = table.nrows :=
    coordsOf_length table _ _ hWF hra hdec
  constructor
  · rfl
  · intro k hk
    rw [hC, mem_dedupKeepIdx_iff near _ table.nrows
      (by rw [List.length_reverse]; exact hlen0)]
    have hkn : table.nrows - 1 - k < table.nrows := by omega
    constructor
    · rintro ⟨-, hall⟩ m hkm hmn
      have hj : table.nrows - 1 - m < table.nrows - 1 - k := by omega
      have hthis := hall (table.nrows - 1 - m) hj
      rw [coordAt_reverse _ _ (by omega), coordAt_reverse _ _ (by omega),
        hlen0] at hthis
      have e1 : table.nrows - 1 - (table.nrows - 1 - k) = k := by omega
      have e2 : table.nrows - 1 - (table.nrows - 1 - m) = m := by omega
      rw [e1, e2] at hthis
      exact hthis
    · intro hall
      refine ⟨hkn, fun j hj => ?_⟩
      rw [coordAt_reverse _ _ (by omega), coordAt_reverse _ _ (by omega), hlen0]
      have e1 : table.nrows - 1 - (table.nrows - 1 - k) = k := by omega
      rw [e1]
      exact hall (table.nrows - 1 - j) (by omega) (by omega)

/-- Witness for C10: unconditional reversal at a concrete catalogue. -/
theorem dedup_reverse_unconditional_witness :
    (exT.WF ∧ (exT.getCol "ra").isSome = true ∧ (exT.getCol "dec").isSome = true) ∧
    ((remove_duplicates exT "ra" "dec" (sqNear 1) none true "flag_cleaned").2 =
      (remove_duplicates exT.reverseRows "ra" "dec" (sqNear 1) none false
        "flag_cleaned").2 ∧
    ∀ k, k < exT.nrows →
      ((exT.nrows - 1 - k) ∈ dedupKeepIdx exT.nrows
          (dedupPairs (sqNear 1)
            ((dedupPrep exT "ra" "dec" none true).coordsOf "ra" "dec")) ↔
        ∀ m, k < m → m < exT.nrows →
          sqNear 1 (coordAt (exT.coordsOf "ra" "dec") k)
            (coordAt (exT.coordsOf "ra" "dec") m) = false)) :=
  ⟨⟨by unfold Table.WF; decide, by decide, by decide⟩,
    dedup_reverse_unconditional exT "ra" "dec" (sqNear 1) "flag_cleaned"
      (by unfold Table.WF; decide) (by decide) (by decide)⟩

/-- C5: deduplication is idempotent on its own output — the second run
removes zero rows, because every pair of distinct surviving rows is
farther apart than the radius. -/
theorem dedup_idempotent (table : Table) (ra_col dec_col : String)
    (near : Val × Val → Val × Val → Bool) (sort_col : Option (List String))
    (reverse : Bool) (flag1 flag2 : String)
    (hWF : table.WF)
    (hra : (table.getCol ra_col).isSome = true)
    (hdec : (table.getCol dec_col).isSome = true)
    (hf1r : ra_col ≠ flag1) (hf1d : dec_col ≠ flag1)
    (hsym : ∀ a b, near a b = near b a) :
    ((remove_duplicates
        (remove_duplicates table ra_col dec_col near sort_col reverse flag1).2
        ra_col dec_col near none false flag2).2).nrows =
      ((remove_duplicates table ra_col dec_col near sort_col reverse flag1).2).nrows ∧
    ∀ i j, i ≠ j →
      i < (((remove_duplicates table ra_col dec_col near sort_col reverse flag1).2).coordsOf
            ra_col dec_col).length →
      j < (((remove_duplicates table ra_col dec_col near sort_col reverse flag1).2).coordsOf
            ra_col dec_col).length →
      near
        (coordAt (((remove_duplicates table ra_col dec_col near sort_col reverse flag1).2).coordsOf
          ra_col dec_col) i)
        (coordAt (((remove_duplicates table ra_col dec_col near sort_col reverse flag1).2).coordsOf
          ra_col dec_col) j) = false := by
  have hT1eq : (remove_duplicates table ra_col dec_col near sort_col reverse flag1).2 =
      (dedupFlagged (dedupPrep table ra_col dec_col sort_col reverse) flag1
          (dedupPairs near
            ((dedupPrep table ra_col dec_col sort_col reverse).coordsOf ra_col dec_col))).selectRows
        (dedupKeepIdx
          (dedupFlagged (dedupPrep table ra_col dec_col sort_col reverse) flag1
            (dedupPairs near
              ((dedupPrep table ra_col dec_col sort_col reverse).coordsOf ra_col dec_col))).nrows
          (dedupPairs near
            ((dedupPrep table ra_col dec_col sort_col reverse).coordsOf ra_col dec_col))) := rfl
  rw [hT1eq]
  set T' := dedupPrep table ra_col dec_col sort_col reverse with hT'def
  set C := T'.coordsOf ra_col dec_col with hCdef0
  set prs := dedupPairs near C with hprsdef
  set tf := dedupFlagged T' flag1 prs with htfdef
  set keep := dedupKeepIdx tf.nrows prs with hkeepdef
  have hWT' : T'.WF := WF_dedupPrep _ _ _ _ _ hWF
  have hraT' : (T'.getCol ra_col).isSome = true := by
    rw [ hT'def, isSome_getCol_dedupPrep]
    exact hra
  have hdecT' : (T'.getCol dec_col).isSome = true := by
    rw [ hT'def, isSome_getCol_dedupPrep]
    exact hdec
  obtain ⟨a, ha⟩ := Option.isSome_iff_exists.mp hraT'
  obtain ⟨b, hb⟩ := Option.isSome_iff_exists.mp hdecT'
  have hCdef : C = a.data.zip b.data := by
    rw [hCdef0]
    unfold Table.coordsOf
    rw [ha, hb]
  have hal : a.data.length = table.nrows := by
    rw [hWT' a (mem_of_getCol_eq_some ha), hT'def, nrows_dedupPrep]
  have hbl : b.data.length = table.nrows := by
    rw [hWT' b (mem_of_getCol_eq_some hb), hT'def, nrows_dedupPrep]
  have hlen : C.length = table.nrows := by
    rw [hCdef, List.length_zip]
    omega
  have hnrowsTf : tf.nrows = table.nrows := by
    rw [htfdef, nrows_dedupFlagged, hT'def, nrows_dedupPrep]
  have hlen' : C.length = tf.nrows := by rw [hlen, hnrowsTf]
  have hkeeplt : ∀ x ∈ keep, x < table.nrows := by
    intro x hx
    have hx1 := (mem_dedupKeepIdx.mp hx).1
    omega
  have hfar : ∀ x ∈ keep, ∀ y ∈ keep, x ≠ y →
      near (coordAt C x) (coordAt C y) = false := by
    intro x hx y hy hne
    rw [hkeepdef, hprsdef, mem_dedupKeepIdx_iff near C tf.nrows hlen'] at hx hy
    rcases Nat.lt_or_ge x y with hlt | hge
    · rw [hsym]
      exact hy.2 x hlt
    · have hyx : y < x := by omega
      exact hx.2 y hyx
  have hT1ra : ((tf.selectRows keep).getCol ra_col) =
      some { a with data := keep.map (fun i => a.data.getD i Val.masked) } := by
    rw [getCol_selectRows, htfdef, getCol_dedupFlagged_ne _ _ _ _ hf1r, ha]
    rfl
  have hT1dec : ((tf.selectRows keep).getCol dec_col) =
      some { b with data := keep.map (fun i => b.data.getD i Val.masked) } := by
    rw [getCol_selectRows, htfdef, getCol_dedupFlagged_ne _ _ _ _ hf1d, hb]
    rfl
  have hC1 : (tf.selectRows keep).coordsOf ra_col dec_col =
      keep.map (fun i => coordAt C i) := by
    unfold Table.coordsOf
    rw [hT1ra, hT1dec]
    show (keep.map (fun i => a.data.getD i Val.masked)).zip
      (keep.map (fun i => b.data.getD i Val.masked)) = _
    rw [List.zip_map']
    apply List.map_congr_left
    intro x hx
    have hxn : x < table.nrows := hkeeplt x hx
    rw [hCdef, coordAt_zip _ _ x (by omega) (by omega)]
  have hconc2 : ∀ i j, i ≠ j →
      i < ((tf.selectRows keep).coordsOf ra_col dec_col).length →
      j < ((tf.selectRows keep).coordsOf ra_col dec_col).length →
      near (coordAt ((tf.selectRows keep).coordsOf ra_col dec_col) i)
        (coordAt ((tf.selectRows keep).coordsOf ra_col dec_col) j) = false := by
    intro i j hne hi hj
    rw [hC1] at hi hj ⊢
    rw [List.length_map] at hi hj
    rw [show coordAt (keep.map (fun i => coordAt C i)) i =
        (keep.map (fun i => coordAt C i)).getD i mCoord from rfl,
      show coordAt (keep.map (fun i => coordAt C i)) j =
        (keep.map (fun i => coordAt C i)).getD j mCoord from rfl,
      getD_map_of_lt _ _ _ hi _ 0, getD_map_of_lt _ _ _ hj _ 0]
    apply hfar
    · rw [List.getD_eq_getElem _ _ hi]
      exact List.getElem_mem hi
    · rw [List.getD_eq_getElem _ _ hj]
      exact List.getElem_mem hj
    · have hnd : keep.Nodup := List.Nodup.filter _ (List.nodup_range _)
      rw [List.getD_eq_getElem _ _ hi, List.getD_eq_getElem _ _ hj]
      intro he
      have hij : (⟨i, hi⟩ : Fin keep.length) = ⟨j, hj⟩ :=
        (List.Nodup.get_inj_iff hnd).mp
          (by rw [List.get_eq_getElem, List.get_eq_getElem]; exact he)
      exact hne (by simpa using congrArg Fin.val hij)
  refine ⟨?_, hconc2⟩
  have hC2 : (dedupPrep (tf.selectRows keep) ra_col dec_col none false).coordsOf
      ra_col dec_col = (tf.selectRows keep).coordsOf ra_col dec_col := by
    show (((tf.selectRows keep).setUnit ra_col "deg").setUnit dec_col "deg").coordsOf
      ra_col dec_col = _
    rw [coordsOf_setUnit, coordsOf_setUnit]
  have hprs2 : dedupPairs near
      ((dedupPrep (tf.selectRows keep) ra_col dec_col none false).coordsOf
        ra_col dec_col) = [] := by
    rw [hC2, List.eq_nil_iff_forall_not_mem]
    intro p hp
    obtain ⟨h1, h2, h3, h4⟩ := mem_dedupPairs.mp (show (p.1, p.2) ∈ _ from hp)
    rw [hconc2 p.1 p.2 h3 h1 h2] at h4
    cases h4
  have h2eq : (remove_duplicates (tf.selectRows keep) ra_col dec_col near none
      false flag2).2 =
      (dedupFlagged (dedupPrep (tf.selectRows keep) ra_col dec_col none false) flag2
          (dedupPairs near
            ((dedupPrep (tf.selectRows keep) ra_col dec_col none false).coordsOf
              ra_col dec_col))).selectRows
        (dedupKeepIdx
          (dedupFlagged (dedupPrep (tf.selectRows keep) ra_col dec_col none false) flag2
            (dedupPairs near
              ((dedupPrep (tf.selectRows keep) ra_col dec_col none false).coordsOf
                ra_col dec_col))).nrows
          (dedupPairs near
            ((dedupPrep (tf.selectRows keep) ra_col dec_col none false).coordsOf
              ra_col dec_col))) := rfl
  rw [h2eq, hprs2, dedupKeepIdx_nil,
    nrows_selectRows _ _ (cols_dedupFlagged_ne_nil _ _ _), List.length_range,
    nrows_dedupFlagged]
  show (dedupPrep (tf.selectRows keep) ra_col dec_col none false).nrows = _
  rw [nrows_dedupPrep]

/-- Witness for C5: idempotence of deduplication at a concrete catalogue. -/
theorem dedup_idempotent_witness :
    (exT.WF ∧ (exT.getCol "ra").isSome = true ∧ (exT.getCol "dec").isSome = true ∧
      "ra" ≠ "flag_cleaned" ∧ "dec" ≠ "flag_cleaned" ∧
      (∀ a b, sqNear 1 a b = sqNear 1 b a)) ∧
    (((remove_duplicates
        (remove_duplicates exT "ra" "dec" (sqNear 1) none false "flag_cleaned").2
        "ra" "dec" (sqNear 1) none false "flag_cleaned2").2).nrows =
      ((remove_duplicates exT "ra" "dec" (sqNear 1) none false "flag_cleaned").2).nrows ∧
    ∀ i j, i ≠ j →
      i < (((remove_duplicates exT "ra" "dec" (sqNear 1) none false "flag_cleaned").2).coordsOf
            "ra" "dec").length →
      j < (((remove_duplicates exT "ra" "dec" (sqNear 1) none false "flag_cleaned").2).coordsOf
            "ra" "dec").length →
      sqNear 1
        (coordAt (((remove_duplicates exT "ra" "dec" (sqNear 1) none false "flag_cleaned").2).coordsOf
          "ra" "dec") i)
        (coordAt (((remove_duplicates exT "ra" "dec" (sqNear 1) none false "flag_cleaned").2).coordsOf
          "ra" "dec") j) = false) :=
  ⟨⟨by unfold Table.WF; decide, by decide, by decide, by decide, by decide,
      sqNear_symm 1⟩,
    dedup_idempotent exT "ra" "dec" (sqNear 1) none false "flag_cleaned"
      "flag_cleaned2" (by unfold Table.WF; decide) (by decide) (by decide)
      (by decide) (by decide) (sqNear_symm 1)⟩

/-! ### Merge assembly toolkit -/

/-- Unfolding: first-occurrence deduplication on a cons cell. -/
theorem dedupFirst_cons {α : Type} [DecidableEq α] (a : α) (l : List α) :
    dedupFirst (a :: l) = a :: dedupFirst (l.filter (fun b => decide (b ≠ a))) := by
  rw [dedupFirst]

/-- Unfolding: first-occurrence deduplication on the empty list. -/
theorem dedupFirst_nil {α : Type} [DecidableEq α] :
    dedupFirst ([] : List α) = [] := by
  rw [dedupFirst]

/-- First-occurrence deduplication preserves membership. -/
theorem mem_dedupFirst {α : Type} [DecidableEq α] (l : List α) (x : α) :
    x ∈ dedupFirst l ↔ x ∈ l := by
  have key : ∀ (n : Nat) (l : List α), l.length ≤ n → ∀ x : α,
      (x ∈ dedupFirst l ↔ x ∈ l) := by
    intro n
    induction n with
    | zero =>
      intro l hl x
      have : l = [] := List.length_eq_zero.mp (Nat.le_zero.mp hl)
      subst this
      rw [dedupFirst_nil]
    | succ n ih =>
      intro l hl x
      cases l with
      | nil => rw [dedupFirst_nil]
      | cons a t =>
        rw [dedupFirst_cons]
        have hlen : (t.filter (fun b => decide (b ≠ a))).length ≤ n := by
          have := List.length_filter_le (fun b => decide (b ≠ a)) t
          simp only [List.length_cons] at hl
          omega
        simp only [List.mem_cons, ih _ hlen, List.mem_filter, decide_eq_true_eq]
        by_cases hx : x = a
        · simp [hx]
        · simp [hx]
  exact key l.length l le_rfl x

/-- Lookup in a list of freshly built named columns. -/
theorem find?_map_mkcol (g : String → Column) (hg : ∀ s, (g s).name = s)
    (nm : String) (names : List String) :
    (names.map g).find? (fun c => decide (c.name = nm)) =
      (if nm ∈ names then some (g nm) else none) := by
  induction names with
  | nil => rfl
  | cons s ss ih =>
    by_cases h : s = nm
    · subst h
      rw [List.map_cons, List.find?_cons_of_pos _ (by simp [hg])]
      simp
    · rw [List.map_cons, List.find?_cons_of_neg _ (by simp [hg, h]), ih]
      by_cases h2 : nm ∈ ss
      · rw [if_pos h2, if_pos (by simp [h2])]
      · have hnot : nm ∉ s :: ss := by
          intro hmem
          rcases List.mem_cons.mp hmem with rfl | hmem2
          · exact h rfl
          · exact h2 hmem2
        rw [if_neg h2, if_neg hnot]

/-- Removing unrelated columns does not affect a lookup. -/
theorem getCol_removeColumns_ne (t : Table) (nms : List String) (nm : String)
    (h : nm ∉ nms) :
    (t.removeColumnsByName nms).getCol nm = t.getCol nm := by
  show (t.cols.filter _).find? _ = t.cols.find? _
  induction t.cols with
  | nil => rfl
  | cons c cs ih =>
    by_cases hk : c.name ∉ nms
    · rw [List.filter_cons_of_pos (by simp [hk])]
      by_cases hnm : c.name = nm
      · rw [List.find?_cons_of_pos _ (by simp [hnm]),
          List.find?_cons_of_pos _ (by simp [hnm])]
      · rw [List.find?_cons_of_neg _ (by simp [hnm]),
          List.find?_cons_of_neg _ (by simp [hnm]), ih]
    · have hmemn : c.name ∈ nms := not_not.mp hk
      have hcnm : c.name ≠ nm := fun he => h (he ▸ hmemn)
      rw [List.filter_cons_of_neg (by simpa using hk),
        List.find?_cons_of_neg _ (by simp [hcnm]), ih]

/-- In a horizontal stack a left-side column wins the lookup. -/
theorem getCol_hstack_of_isSome (t1 t2 : Table) (nm : String)
    (h : (t1.getCol nm).isSome = true) :
    (Table.hstack t1 t2).getCol nm = t1.getCol nm := by
  obtain ⟨c, hc⟩ := Option.isSome_iff_exists.mp h
  show (t1.cols ++ t2.cols).find? _ = _
  rw [List.find?_append, show t1.cols.find? (fun c => decide (c.name = nm)) =
    some c from hc]
  exact hc.symm ▸ rfl

/-- In a horizontal stack an absent left name defers to the right side. -/
theorem getCol_hstack_of_none (t1 t2 : Table) (nm : String)
    (h : t1.getCol nm = none) :
    (Table.hstack t1 t2).getCol nm = t2.getCol nm := by
  show (t1.cols ++ t2.cols).find? _ = _
  rw [List.find?_append, show t1.cols.find? (fun c => decide (c.name = nm)) =
    none from h, Option.none_or]
  rfl

/-- Indexing an append on the left. -/
theorem getD_append_left {α : Type} (a b : List α) (i : Nat) (h : i < a.length)
    (d : α) : (a ++ b).getD i d = a.getD i d := by
  rw [List.getD_eq_getElem?_getD, List.getD_eq_getElem?_getD,
    List.getElem?_append, if_pos h]

/-- Indexing an append on the right. -/
theorem getD_append_right {α : Type} (a b : List α) (i : Nat)
    (h : a.length ≤ i) (d : α) :
    (a ++ b).getD i d = b.getD (i - a.length) d := by
  rw [List.getD_eq_getElem?_getD, List.getD_eq_getElem?_getD,
    List.getElem?_append_right h]

/-- Indexing a zipWith within range. -/
theorem getD_zipWith_lt {α β γ : Type} (f : α → β → γ) (a : List α) (b : List β)
    (i : Nat) (ha : i < a.length) (hb : i < b.length) (d : γ) (da : α) (db : β) :
    (List.zipWith f a b).getD i d = f (a.getD i da) (b.getD i db) := by
  have hz : i < (List.zipWith f a b).length := by
    rw [List.length_zipWith]
    omega
  rw [List.getD_eq_getElem _ _ hz, List.getD_eq_getElem _ _ ha,
    List.getD_eq_getElem _ _ hb, List.getElem_zipWith]

/-- Indexing a list at the position of a member. -/
theorem getD_indexOf {α : Type} [DecidableEq α]
    (l : List α) (a : α) (h : a ∈ l) (d : α) :
    l.getD (l.indexOf a) d = a := by
  have hlt : l.indexOf a < l.length := List.indexOf_lt_length.mpr h
  rw [List.getD_eq_getElem _ _ hlt]
  exact List.getElem_indexOf hlt

/-- A filtered nodup list loses exactly the one occurrence of a member. -/
theorem length_filter_ne_of_nodup (l : List Nat) (a : Nat) (hnd : l.Nodup)
    (ha : a ∈ l) :
    (l.filter (fun i => decide (i ≠ a))).length = l.length - 1 := by
  induction l with
  | nil => simp at ha
  | cons b t ih =>
    rcases List.mem_cons.mp ha with rfl | hat
    · rw [List.filter_cons_of_neg (by simp)]
      have hnotin : a ∉ t := (List.nodup_cons.mp hnd).1
      rw [List.filter_eq_self.mpr (fun x hx => by
        simp only [decide_eq_true_eq]
        exact fun he => hnotin (he ▸ hx))]
      simp
    · have hba : b ≠ a := by
        rintro rfl
        exact (List.nodup_cons.mp hnd).1 hat
      rw [List.filter_cons_of_pos (by simp [hba])]
      have hlen := ih (List.nodup_cons.mp hnd).2 hat
      have hpos : 1 ≤ t.length := List.length_pos.mpr (List.ne_nil_of_mem hat)
      simp only [List.length_cons, hlen]
      omega

/-- Counting the range elements outside a nodup in-range list. -/
theorem length_range_filter_not_mem (n : Nat) :
    ∀ (s : List Nat), s.Nodup → (∀ x ∈ s, x < n) →
      ((List.range n).filter (fun i => decide (i ∉ s))).length = n - s.length := by
  intro s
  induction s with
  | nil => simp
  | cons a s' ih =>
    intro hnd hsub
    have hhd := (List.nodup_cons.mp hnd).1
    have htl := (List.nodup_cons.mp hnd).2
    have step : (List.range n).filter (fun i => decide (i ∉ a :: s')) =
        ((List.range n).filter (fun i => decide (i ∉ s'))).filter
          (fun i => decide (i ≠ a)) := by
      rw [List.filter_filter]
      apply List.filter_congr
      intro x hx
      simp only [List.mem_cons, decide_eq_true_eq, not_or, Bool.and_comm]
      rw [Bool.decide_and]
    rw [step, length_filter_ne_of_nodup _ a
        (List.Nodup.filter _ (List.nodup_range n))
        (List.mem_filter.mpr ⟨List.mem_range.mpr (hsub a (by simp)), by simp [hhd]⟩),
      ih htl (fun x hx => hsub x (by simp [hx]))]
    simp only [List.length_cons]
    omega

/-- Row count read off an exposed head column. -/
theorem nrows_eq_head (t : Table) {c0 : Column} {cs0 : List Column}
    (h : t.cols = c0 :: cs0) : t.nrows = c0.data.length := by
  unfold Table.nrows
  rw [h]

/-- Row count of a column-less table. -/
theorem nrows_eq_nil (t : Table) (h : t.cols = []) : t.nrows = 0 := by
  unfold Table.nrows
  rw [h]

/-- Row count of a table whose columns all have the same length. -/
theorem nrows_of_cols_all_len (t : Table) (n : Nat)
    (hall : ∀ c ∈ t.cols, c.data.length = n) (hne : t.cols ≠ []) :
    t.nrows = n := by
  rcases hh : t.cols with _ | ⟨c0, cs0⟩
  · exact absurd hh hne
  · rw [nrows_eq_head t hh]
    exact hall c0 (by rw [hh]; simp)

/-- Row count under a named update shrinking no member column. -/
theorem nrows_modifyCol_mem (t : Table) (nm : String) (f : Column → Column)
    (hf : ∀ c ∈ t.cols, (f c).data.length = c.data.length) :
    (t.modifyCol nm f).nrows = t.nrows := by
  rcases t with ⟨cols⟩
  cases cols with
  | nil => rfl
  | cons c cs =>
    show (Table.mk (replaceFirstCol nm f (c :: cs))).nrows = _
    rw [replaceFirstCol]
    by_cases h : c.name = nm
    · rw [if_pos h]
      show (f c).data.length = c.data.length
      exact hf c (by simp)
    · rw [if_neg h]
      rfl

/-- Well-formedness under a named update shrinking no member column. -/
theorem WF_modifyCol_mem (t : Table) (nm : String) (f : Column → Column)
    (hf : ∀ c ∈ t.cols, (f c).data.length = c.data.length) (h : t.WF) :
    (t.modifyCol nm f).WF := by
  intro c hc
  rw [nrows_modifyCol_mem t nm f hf]
  rcases mem_replaceFirstCol hc with h1 | ⟨c0, hc0, rfl⟩
  · exact h c h1
  · rw [hf c0 hc0]
    exact h c0 hc0

/-- Well-formedness survives column removal. -/
theorem WF_removeColumns (t : Table) (nms : List String) (h : t.WF) :
    (t.removeColumnsByName nms).WF := by
  intro c hc
  have hcl : c ∈ t.cols := List.mem_of_mem_filter hc
  rcases hh : (t.removeColumnsByName nms).cols with _ | ⟨c0, cs0⟩
  · rw [hh] at hc
    simp at hc
  · rw [nrows_eq_head _ hh]
    have hc0mem : c0 ∈ (t.removeColumnsByName nms).cols := by
      rw [hh]
      simp
    have hc0 : c0 ∈ t.cols := List.mem_of_mem_filter hc0mem
    rw [h c hcl, h c0 hc0]

/-- Contribution length of a well-formed table to a stacked column. -/
theorem vstackContrib_length (nm : String) (t : Table) (h : t.WF) :
    (vstackContrib nm t).length = t.nrows := by
  unfold vstackContrib
  rcases hg : t.getCol nm with _ | c
  · simp
  · exact h c (mem_of_getCol_eq_some hg)

/-- The constructed column of a vertical stack of three tables. -/
theorem getCol_vstack3 (t1 t2 t3 : Table) (nm : String)
    (hmem : nm ∈ dedupFirst ([t1, t2, t3].map Table.colnames).flatten) :
    (Table.vstack [t1, t2, t3]).getCol nm =
      some { name := nm
             unit := (vstackMeta nm [t1, t2, t3]).bind Column.unit
             fill := (vstackMeta nm [t1, t2, t3]).bind Column.fill
             data := ([t1, t2, t3].map (vstackContrib nm)).flatten } := by
  show ((dedupFirst ([t1, t2, t3].map Table.colnames).flatten).map _).find? _ = _
  rw [find?_map_mkcol _ (fun s => rfl) nm _, if_pos hmem]

/-- Row count of a vertical stack of three well-formed tables. -/
theorem nrows_vstack3 (t1 t2 t3 : Table) (h1 : t1.WF) (h2 : t2.WF)
    (h3 : t3.WF) :
    (Table.vstack [t1, t2, t3]).nrows = t1.nrows + t2.nrows + t3.nrows := by
  rcases hh : dedupFirst ([t1, t2, t3].map Table.colnames).flatten with _ | ⟨nm, nms⟩
  · have hflat : ([t1, t2, t3].map Table.colnames).flatten = [] := by
      rcases hf : ([t1, t2, t3].map Table.colnames).flatten with _ | ⟨x, xs⟩
      · rfl
      · rw [hf, dedupFirst_cons] at hh
        cases hh
    have h123 := hflat
    simp only [List.map_cons, List.map_nil, List.flatten_cons, List.flatten_nil,
      List.append_nil, List.append_eq_nil] at h123
    obtain ⟨h1n, h2n, h3n⟩ := h123
    have e1 : t1.nrows = 0 := nrows_eq_nil _ (List.map_eq_nil.mp h1n)
    have e2 : t2.nrows = 0 := nrows_eq_nil _ (List.map_eq_nil.mp h2n)
    have e3 : t3.nrows = 0 := nrows_eq_nil _ (List.map_eq_nil.mp h3n)
    have e0 : (Table.vstack [t1, t2, t3]).nrows = 0 := by
      apply nrows_eq_nil
      show (dedupFirst ([t1, t2, t3].map Table.colnames).flatten).map _ = []
      rw [hh]
      rfl
    rw [e0, e1, e2, e3]
  · have hcols : (Table.vstack [t1, t2, t3]).cols =
        (nm :: nms).map (fun nm =>
          { name := nm
            unit := (vstackMeta nm [t1, t2, t3]).bind Column.unit
            fill := (vstackMeta nm [t1, t2, t3]).bind Column.fill
            data := ([t1, t2, t3].map (vstackContrib nm)).flatten }) := by
      show (dedupFirst ([t1, t2, t3].map Table.colnames).flatten).map _ = _
      rw [hh]
    rw [nrows_eq_head _ (by rw [hcols]; rfl)]
    show (([t1, t2, t3].map (vstackContrib nm)).flatten).length = _
    simp only [List.map_cons, List.map_nil, List.flatten]
    rw [List.length_append, List.length_append, List.length_append]
    rw [vstackContrib_length nm t1 h1, vstackContrib_length nm t2 h2,
      vstackContrib_length nm t3 h3]
    simp
    omega

/-- Lookup of another name after a unit assignment. -/
theorem getCol_setUnit_ne (t : Table) (nm u nm' : String) (hne : nm' ≠ nm) :
    (t.setUnit nm u).getCol nm' = t.getCol nm' :=
  getCol_modifyCol_ne t nm nm' _ (fun c => rfl) hne

/-- Row count is unchanged by a column rename. -/
theorem nrows_renameCol (t : Table) (oldNm newNm : String) :
    (t.renameCol oldNm newNm).nrows = t.nrows :=
  nrows_modifyCol t oldNm _ (fun c => rfl)

/-- Well-formedness survives a column rename. -/
theorem WF_renameCol (t : Table) (oldNm newNm : String) (h : t.WF) :
    (t.renameCol oldNm newNm).WF :=
  WF_modifyCol t oldNm _ (fun c => rfl) h

/-- A rename leaves lookups of unrelated names untouched. -/
theorem getCol_renameCol_other (t : Table) (oldNm newNm nm : String)
    (h1 : nm ≠ oldNm) (h2 : nm ≠ newNm) :
    (t.renameCol oldNm newNm).getCol nm = t.getCol nm := by
  show (replaceFirstCol oldNm _ t.cols).find? _ = t.cols.find? _
  induction t.cols with
  | nil => rfl
  | cons c cs ih =>
    rw [replaceFirstCol]
    by_cases hc : c.name = oldNm
    · rw [if_pos hc,
        List.find?_cons_of_neg _
          (by simp only [decide_eq_true_eq]; exact fun hh => h2 hh.symm),
        List.find?_cons_of_neg _
          (by simp only [hc, decide_eq_true_eq]; exact fun hh => h1 hh.symm)]
    · by_cases hnm : c.name = nm
      · rw [if_neg hc, List.find?_cons_of_pos _ (by simp [hnm]),
          List.find?_cons_of_pos _ (by simp [hnm])]
      · rw [if_neg hc, List.find?_cons_of_neg _ (by simp [hnm]),
          List.find?_cons_of_neg _ (by simp [hnm]), ih]

/-- A looked-up name is among the column names. -/
theorem mem_colnames_of_isSome {t : Table} {nm : String}
    (h : (t.getCol nm).isSome = true) : nm ∈ t.colnames := by
  obtain ⟨c, hc⟩ := Option.isSome_iff_exists.mp h
  exact List.mem_map.mpr ⟨c, mem_of_getCol_eq_some hc, name_of_getCol_eq_some hc⟩

/-- Stage B always leaves `flag_merged` present on the cat_1 side. -/
theorem isSome_getCol_mergeCat1Flagged_fm (cat_1 : Table) (pairs : List CrossPair) :
    ((mergeCat1Flagged cat_1 pairs).getCol "flag_merged").isSome = true := by
  simp only [mergeCat1Flagged]
  by_cases h : (((cat_1.setUnit "ra" "deg").setUnit "dec" "deg").getCol
      "flag_merged").isSome = true
  · rw [if_pos h]
    exact (isSome_getCol_modifyCol _ "flag_merged" "flag_merged"
      (fun c => { c with
        data := c.data.zipWith orVal ((mergeFlagMask1 cat_1.nrows pairs).map Val.bool) })
      (fun c => rfl)).trans h
  · rw [if_neg h]
    have hnone : ((cat_1.setUnit "ra" "deg").setUnit "dec" "deg").getCol
        "flag_merged" = none := by
      rcases hc : ((cat_1.setUnit "ra" "deg").setUnit "dec" "deg").getCol
          "flag_merged" with _ | c
      · rfl
      · exact absurd (by rw [hc]; rfl) h
    rw [getCol_addColumn_of_none _ _ _ hnone rfl]
    rfl

/-- Stage B preserves the cat_1 row count. -/
theorem nrows_mergeCat1Flagged (cat_1 : Table) (pairs : List CrossPair)
    (hWF : cat_1.WF) :
    (mergeCat1Flagged cat_1 pairs).nrows = cat_1.nrows := by
  simp only [mergeCat1Flagged]
  have hnu : ((cat_1.setUnit "ra" "deg").setUnit "dec" "deg").nrows = cat_1.nrows := by
    rw [nrows_setUnit, nrows_setUnit]
  have hWFu : ((cat_1.setUnit "ra" "deg").setUnit "dec" "deg").WF :=
    WF_setUnit _ _ _ (WF_setUnit _ _ _ hWF)
  by_cases h : (((cat_1.setUnit "ra" "deg").setUnit "dec" "deg").getCol
      "flag_merged").isSome = true
  · rw [if_pos h]
    refine (nrows_modifyCol_mem _ "flag_merged" _ ?_).trans hnu
    intro c hc
    rw [List.length_zipWith, List.length_map, hWFu c hc, hnu]
    simp [mergeFlagMask1]
  · rw [if_neg h]
    refine (nrows_addColumn _ _ ?_).trans hnu
    simp [mergeFlagMask1, hnu]

/-- Stage B preserves well-formedness of cat_1. -/
theorem WF_mergeCat1Flagged (cat_1 : Table) (pairs : List CrossPair)
    (hWF : cat_1.WF) : (mergeCat1Flagged cat_1 pairs).WF := by
  simp only [mergeCat1Flagged]
  have hnu : ((cat_1.setUnit "ra" "deg").setUnit "dec" "deg").nrows = cat_1.nrows := by
    rw [nrows_setUnit, nrows_setUnit]
  have hWFu : ((cat_1.setUnit "ra" "deg").setUnit "dec" "deg").WF :=
    WF_setUnit _ _ _ (WF_setUnit _ _ _ hWF)
  by_cases h : (((cat_1.setUnit "ra" "deg").setUnit "dec" "deg").getCol
      "flag_merged").isSome = true
  · rw [if_pos h]
    refine WF_modifyCol_mem _ "flag_merged" _ ?_ hWFu
    intro c hc
    rw [List.length_zipWith, List.length_map, hWFu c hc, hnu]
    simp [mergeFlagMask1]
  · rw [if_neg h]
    refine WF_addColumn _ _ ?_ hWFu
    simp [mergeFlagMask1, hnu]

/-- Stage B leaves cat_1 with at least one column. -/
theorem cols_mergeCat1Flagged_ne_nil (cat_1 : Table) (pairs : List CrossPair) :
    (mergeCat1Flagged cat_1 pairs).cols ≠ [] := by
  simp only [mergeCat1Flagged]
  by_cases h : (((cat_1.setUnit "ra" "deg").setUnit "dec" "deg").getCol
      "flag_merged").isSome = true
  · rw [if_pos h]
    obtain ⟨c, hc⟩ := Option.isSome_iff_exists.mp h
    have hmem := mem_of_getCol_eq_some hc
    intro he
    have he' : replaceFirstCol "flag_merged"
        (fun c => { c with
          data := c.data.zipWith orVal ((mergeFlagMask1 cat_1.nrows pairs).map Val.bool) })
        ((cat_1.setUnit "ra" "deg").setUnit "dec" "deg").cols = [] := he
    have hlen := congrArg List.length he'
    rw [length_replaceFirstCol] at hlen
    exact List.ne_nil_of_mem hmem (List.length_eq_zero.mp hlen)
  · rw [if_neg h]
    simp [Table.addColumn]

/-- The freshly added `flag_merged_2` column in stage-B cat_2. -/
theorem getCol_mergeCat2Flagged_fm2 (cat_2 : Table) (racol_2 decol_2 : String)
    (pairs : List CrossPair) (hfree : "flag_merged_2" ∉ cat_2.colnames) :
    (mergeCat2Flagged cat_2 racol_2 decol_2 pairs).getCol "flag_merged_2" =
      some { name := "flag_merged_2", unit := none, fill := none
             data := (mergeFlagMask2 cat_2.nrows pairs).map Val.bool } := by
  unfold mergeCat2Flagged
  apply getCol_addColumn_of_none
  · rw [getCol_eq_none_iff, colnames_setUnit, colnames_setUnit]
    exact hfree
  · rfl

/-- Stage-B cat_2 lookups of other names are untouched. -/
theorem getCol_mergeCat2Flagged_ne (cat_2 : Table) (racol_2 decol_2 : String)
    (pairs : List CrossPair) (nm : String) (hne : nm ≠ "flag_merged_2")
    (hner : nm ≠ racol_2) (hned : nm ≠ decol_2) :
    (mergeCat2Flagged cat_2 racol_2 decol_2 pairs).getCol nm = cat_2.getCol nm := by
  unfold mergeCat2Flagged
  rw [getCol_addColumn_ne _ _ _ (Ne.symm hne), getCol_setUnit_ne _ _ _ _ hned,
    getCol_setUnit_ne _ _ _ _ hner]

/-- Stage B preserves the cat_2 row count. -/
theorem nrows_mergeCat2Flagged (cat_2 : Table) (racol_2 decol_2 : String)
    (pairs : List CrossPair) :
    (mergeCat2Flagged cat_2 racol_2 decol_2 pairs).nrows = cat_2.nrows := by
  unfold mergeCat2Flagged
  have hnu : ((cat_2.setUnit racol_2 "deg").setUnit decol_2 "deg").nrows =
      cat_2.nrows := by
    rw [nrows_setUnit, nrows_setUnit]
  refine (nrows_addColumn _ _ ?_).trans hnu
  simp [mergeFlagMask2, hnu]

/-- Stage B preserves well-formedness of cat_2. -/
theorem WF_mergeCat2Flagged (cat_2 : Table) (racol_2 decol_2 : String)
    (pairs : List CrossPair) (hWF : cat_2.WF) :
    (mergeCat2Flagged cat_2 racol_2 decol_2 pairs).WF := by
  unfold mergeCat2Flagged
  have hnu : ((cat_2.setUnit racol_2 "deg").setUnit decol_2 "deg").nrows =
      cat_2.nrows := by
    rw [nrows_setUnit, nrows_setUnit]
  refine WF_addColumn _ _ ?_ (WF_setUnit _ _ _ (WF_setUnit _ _ _ hWF))
  simp [mergeFlagMask2, hnu]

/-- Stage B leaves cat_2 with at least one column. -/
theorem cols_mergeCat2Flagged_ne_nil (cat_2 : Table) (racol_2 decol_2 : String)
    (pairs : List CrossPair) :
    (mergeCat2Flagged cat_2 racol_2 decol_2 pairs).cols ≠ [] := by
  unfold mergeCat2Flagged
  simp [Table.addColumn]

/-- Every committed pair is the projection of an oracle pair. -/
theorem mergeMatches_mem_src (pairs : List CrossPair) (p : Nat × Nat)
    (hp : p ∈ mergeMatches pairs) : ∃ q ∈ pairs, p = (cpIdx1 q, cpIdx2 q) := by
  have hsub := roundMatch_subset _ _ le_rfl p hp
  obtain ⟨q, hq, hqe⟩ := List.mem_map.mp hsub
  exact ⟨q, (mem_ssortBy _ _ _).mp hq, hqe.symm⟩

/-- The committed cat_1 indices are distinct. -/
theorem nodup_mergeMatchIdx1 (pairs : List CrossPair) :
    (mergeMatchIdx1 pairs).Nodup :=
  List.pairwise_map.mpr ((mergeMatches_pairwise pairs).imp
    (fun h => (touches_false_iff.mp h).1))

/-- The committed cat_2 indices are distinct. -/
theorem nodup_mergeMatchIdx2 (pairs : List CrossPair) :
    (mergeMatchIdx2 pairs).Nodup :=
  List.pairwise_map.mpr ((mergeMatches_pairwise pairs).imp
    (fun h => (touches_false_iff.mp h).2))

/-- Unmatched-index count on the cat_1 side. -/
theorem length_mergeUnmatchedIdx1 (cat_1 : Table) (pairs : List CrossPair)
    (hrange1 : ∀ p ∈ pairs, cpIdx1 p < cat_1.nrows) :
    (mergeUnmatchedIdx1 cat_1.nrows pairs).length =
      cat_1.nrows - (mergeMatches pairs).length := by
  unfold mergeUnmatchedIdx1
  rw [length_range_filter_not_mem cat_1.nrows _ (nodup_mergeMatchIdx1 pairs) ?_]
  · rw [show (mergeMatchIdx1 pairs).length = (mergeMatches pairs).length from
      List.length_map _ _]
  · intro x hx
    obtain ⟨m, hm, hme⟩ := List.mem_map.mp hx
    obtain ⟨q, hq, hqe⟩ := mergeMatches_mem_src pairs m hm
    rw [← hme, hqe]
    exact hrange1 q hq

/-- Unmatched-index count on the cat_2 side. -/
theorem length_mergeUnmatchedIdx2 (cat_2 : Table) (pairs : List CrossPair)
    (hrange2 : ∀ p ∈ pairs, cpIdx2 p < cat_2.nrows) :
    (mergeUnmatchedIdx2 cat_2.nrows pairs).length =
      cat_2.nrows - (mergeMatches pairs).length := by
  unfold mergeUnmatchedIdx2
  rw [length_range_filter_not_mem cat_2.nrows _ (nodup_mergeMatchIdx2 pairs) ?_]
  · rw [show (mergeMatchIdx2 pairs).length = (mergeMatches pairs).length from
      List.length_map _ _]
  · intro x hx
    obtain ⟨m, hm, hme⟩ := List.mem_map.mp hx
    obtain ⟨q, hq, hqe⟩ := mergeMatches_mem_src pairs m hm
    rw [← hme, hqe]
    exact hrange2 q hq

/-- Committed matches never outnumber the cat_1 rows. -/
theorem length_mergeMatches_le1 (cat_1 : Table) (pairs : List CrossPair)
    (hrange1 : ∀ p ∈ pairs, cpIdx1 p < cat_1.nrows) :
    (mergeMatches pairs).length ≤ cat_1.nrows := by
  have hlen : (mergeMatchIdx1 pairs).length = (mergeMatches pairs).length :=
    List.length_map _ _
  rw [← hlen]
  have hsub : mergeMatchIdx1 pairs ⊆ List.range cat_1.nrows := by
    intro x hx
    obtain ⟨m, hm, hme⟩ := List.mem_map.mp hx
    obtain ⟨q, hq, hqe⟩ := mergeMatches_mem_src pairs m hm
    rw [List.mem_range, ← hme, hqe]
    exact hrange1 q hq
  calc (mergeMatchIdx1 pairs).length
      ≤ (List.range cat_1.nrows).length :=
        List.Subperm.length_le ((nodup_mergeMatchIdx1 pairs).subperm hsub)
    _ = cat_1.nrows := List.length_range _

/-- Committed matches never outnumber the cat_2 rows. -/
theorem length_mergeMatches_le2 (cat_2 : Table) (pairs : List CrossPair)
    (hrange2 : ∀ p ∈ pairs, cpIdx2 p < cat_2.nrows) :
    (mergeMatches pairs).length ≤ cat_2.nrows := by
  have hlen : (mergeMatchIdx2 pairs).length = (mergeMatches pairs).length :=
    List.length_map _ _
  rw [← hlen]
  have hsub : mergeMatchIdx2 pairs ⊆ List.range cat_2.nrows := by
    intro x hx
    obtain ⟨m, hm, hme⟩ := List.mem_map.mp hx
    obtain ⟨q, hq, hqe⟩ := mergeMatches_mem_src pairs m hm
    rw [List.mem_range, ← hme, hqe]
    exact hrange2 q hq
  calc (mergeMatchIdx2 pairs).length
      ≤ (List.range cat_2.nrows).length :=
        List.Subperm.length_le ((nodup_mergeMatchIdx2 pairs).subperm hsub)
    _ = cat_2.nrows := List.length_range _

/-- Every column of a row selection has one cell per selected index. -/
theorem mem_cols_selectRows_len (t : Table) (idxs : List Nat) (c : Column)
    (hc : c ∈ (t.selectRows idxs).cols) : c.data.length = idxs.length := by
  have hc2 : c ∈ t.cols.map (fun c =>
      { c with data := idxs.map (fun i => c.data.getD i Val.masked) }) := hc
  obtain ⟨c0, hc0, rfl⟩ := List.mem_map.mp hc2
  simp

/-- A table whose columns all share one cell count is well-formed. -/
theorem WF_of_cols_all_len (t : Table) (n : Nat)
    (hall : ∀ c ∈ t.cols, c.data.length = n) : t.WF := by
  rcases hh : t.cols with _ | ⟨c0, cs0⟩
  · intro c hc
    rw [hh] at hc
    simp at hc
  · intro c hc
    rw [nrows_eq_head t hh, hall c hc, hall c0 (by rw [hh]; simp)]

/-- Row count after removing columns, provided some column survives. -/
theorem nrows_removeColumns_of_mem (t : Table) (nms : List String)
    (hWF : t.WF) (c : Column) (hc : c ∈ (t.removeColumnsByName nms).cols) :
    (t.removeColumnsByName nms).nrows = t.nrows := by
  refine nrows_of_cols_all_len _ _ ?_ (List.ne_nil_of_mem hc)
  intro c2 hc2
  exact hWF c2 (List.mem_of_mem_filter hc2)

/-- Row count of the only-in-cat_1 block. -/
theorem nrows_mergeOnly1 (cat_1 : Table) (pairs : List CrossPair)
    (hrange1 : ∀ p ∈ pairs, cpIdx1 p < cat_1.nrows) :
    (mergeOnly1 cat_1 pairs).nrows =
      cat_1.nrows - (mergeMatches pairs).length := by
  unfold mergeOnly1
  rw [nrows_selectRows _ _ (cols_mergeCat1Flagged_ne_nil cat_1 pairs)]
  exact length_mergeUnmatchedIdx1 cat_1 pairs hrange1

/-- Row count of the only-in-cat_2 block. -/
theorem nrows_mergeOnly2 (cat_2 : Table) (racol_2 decol_2 : String)
    (pairs : List CrossPair)
    (hrange2 : ∀ p ∈ pairs, cpIdx2 p < cat_2.nrows) :
    (mergeOnly2 cat_2 racol_2 decol_2 pairs).nrows =
      cat_2.nrows - (mergeMatches pairs).length := by
  unfold mergeOnly2
  rw [nrows_renameCol, nrows_renameCol,
    nrows_selectRows _ _ (cols_mergeCat2Flagged_ne_nil cat_2 racol_2 decol_2 pairs)]
  exact length_mergeUnmatchedIdx2 cat_2 pairs hrange2

/-- The only-in-cat_1 block is well-formed. -/
theorem WF_mergeOnly1 (cat_1 : Table) (pairs : List CrossPair) :
    (mergeOnly1 cat_1 pairs).WF := by
  unfold mergeOnly1
  exact WF_selectRows _ _

/-- The only-in-cat_2 block is well-formed. -/
theorem WF_mergeOnly2 (cat_2 : Table) (racol_2 decol_2 : String)
    (pairs : List CrossPair) : (mergeOnly2 cat_2 racol_2 decol_2 pairs).WF := by
  unfold mergeOnly2
  exact WF_renameCol _ _ _ (WF_renameCol _ _ _ (WF_selectRows _ _))

/-- Every column of the matched block has one cell per committed match. -/
theorem mem_cols_mergeBoth_len (cat_1 cat_2 : Table) (racol_2 decol_2 : String)
    (pairs : List CrossPair) (c : Column)
    (hc : c ∈ (mergeBoth cat_1 cat_2 racol_2 decol_2 pairs).cols) :
    c.data.length = (mergeMatches pairs).length := by
  have hc2 : c ∈ ((Table.hstack
      ((mergeCat1Flagged cat_1 pairs).selectRows (mergeMatchIdx1 pairs))
      ((mergeCat2Flagged cat_2 racol_2 decol_2 pairs).selectRows
        (mergeMatchIdx2 pairs))).cols).filter
      (fun c => decide (c.name ∉ [racol_2, decol_2])) := hc
  have hc3 : c ∈ ((mergeCat1Flagged cat_1 pairs).selectRows
        (mergeMatchIdx1 pairs)).cols ++
      ((mergeCat2Flagged cat_2 racol_2 decol_2 pairs).selectRows
        (mergeMatchIdx2 pairs)).cols := List.mem_of_mem_filter hc2
  rcases List.mem_append.mp hc3 with h | h
  · rw [mem_cols_selectRows_len _ _ _ h]
    exact List.length_map _ _
  · rw [mem_cols_selectRows_len _ _ _ h]
    exact List.length_map _ _

/-- The matched block is well-formed. -/
theorem WF_mergeBoth (cat_1 cat_2 : Table) (racol_2 decol_2 : String)
    (pairs : List CrossPair) : (mergeBoth cat_1 cat_2 racol_2 decol_2 pairs).WF :=
  WF_of_cols_all_len _ (mergeMatches pairs).length
    (fun c hc => mem_cols_mergeBoth_len cat_1 cat_2 racol_2 decol_2 pairs c hc)

/-- The `flag_merged` column is present on the only-in-cat_1 block. -/
theorem isSome_getCol_mergeOnly1_fm (cat_1 : Table) (pairs : List CrossPair) :
    ((mergeOnly1 cat_1 pairs).getCol "flag_merged").isSome = true := by
  unfold mergeOnly1
  rw [isSome_getCol_selectRows]
  exact isSome_getCol_mergeCat1Flagged_fm cat_1 pairs

/-- The `flag_merged` column survives into the matched block. -/
theorem isSome_getCol_mergeBoth_fm (cat_1 cat_2 : Table) (racol_2 decol_2 : String)
    (pairs : List CrossPair) (hner : racol_2 ≠ "flag_merged")
    (hned : decol_2 ≠ "flag_merged") :
    ((mergeBoth cat_1 cat_2 racol_2 decol_2 pairs).getCol
      "flag_merged").isSome = true := by
  have hnotin : "flag_merged" ∉ [racol_2, decol_2] := by
    intro hmem
    simp only [List.mem_cons, List.not_mem_nil, or_false] at hmem
    rcases hmem with h | h
    · exact hner h.symm
    · exact hned h.symm
  have hA : (((mergeCat1Flagged cat_1 pairs).selectRows
      (mergeMatchIdx1 pairs)).getCol "flag_merged").isSome = true := by
    rw [isSome_getCol_selectRows]
    exact isSome_getCol_mergeCat1Flagged_fm cat_1 pairs
  unfold mergeBoth
  rw [getCol_removeColumns_ne _ _ _ hnotin, getCol_hstack_of_isSome _ _ _ hA]
  exact hA

/-- Row count of the matched block. -/
theorem nrows_mergeBoth (cat_1 cat_2 : Table) (racol_2 decol_2 : String)
    (pairs : List CrossPair) (hner : racol_2 ≠ "flag_merged")
    (hned : decol_2 ≠ "flag_merged") :
    (mergeBoth cat_1 cat_2 racol_2 decol_2 pairs).nrows =
      (mergeMatches pairs).length := by
  obtain ⟨c, hc⟩ := Option.isSome_iff_exists.mp
    (isSome_getCol_mergeBoth_fm cat_1 cat_2 racol_2 decol_2 pairs hner hned)
  exact nrows_of_cols_all_len _ _
    (fun c2 hc2 => mem_cols_mergeBoth_len cat_1 cat_2 racol_2 decol_2 pairs c2 hc2)
    (List.ne_nil_of_mem (mem_of_getCol_eq_some hc))

/-- Total cell count of a stacked column over three well-formed tables. -/
theorem flatten_contrib_length (nm : String) (t1 t2 t3 : Table)
    (h1 : t1.WF) (h2 : t2.WF) (h3 : t3.WF) :
    (([t1, t2, t3].map (vstackContrib nm)).flatten).length =
      t1.nrows + t2.nrows + t3.nrows := by
  simp only [List.map_cons, List.map_nil, List.flatten_cons, List.flatten_nil,
    List.append_nil, List.length_append]
  rw [vstackContrib_length nm t1 h1, vstackContrib_length nm t2 h2,
    vstackContrib_length nm t3 h3]
  omega

/-- A vertical stack of three well-formed tables is well-formed. -/
theorem WF_vstack3 (t1 t2 t3 : Table) (h1 : t1.WF) (h2 : t2.WF) (h3 : t3.WF) :
    (Table.vstack [t1, t2, t3]).WF := by
  refine WF_of_cols_all_len _ (t1.nrows + t2.nrows + t3.nrows) ?_
  intro c hc
  have hc2 : c ∈ (dedupFirst ([t1, t2, t3].map Table.colnames).flatten).map
      (fun nm =>
        { name := nm
          unit := (vstackMeta nm [t1, t2, t3]).bind Column.unit
          fill := (vstackMeta nm [t1, t2, t3]).bind Column.fill
          data := ([t1, t2, t3].map (vstackContrib nm)).flatten }) := hc
  obtain ⟨nm, hnm, rfl⟩ := List.mem_map.mp hc2
  exact flatten_contrib_length nm t1 t2 t3 h1 h2 h3

/-- A name present on the first stacked table is present on the stack. -/
theorem isSome_getCol_vstack3_of_mem1 (t1 t2 t3 : Table) (nm : String)
    (h : nm ∈ t1.colnames) :
    ((Table.vstack [t1, t2, t3]).getCol nm).isSome = true := by
  have hmem : nm ∈ dedupFirst ([t1, t2, t3].map Table.colnames).flatten := by
    rw [mem_dedupFirst]
    simp only [List.map_cons, List.map_nil, List.flatten_cons, List.flatten_nil,
      List.append_nil, List.mem_append]
    exact Or.inl h
  rw [getCol_vstack3 t1 t2 t3 nm hmem]
  rfl

/-- The column names of a vertical stack of three tables. -/
theorem colnames_vstack3 (t1 t2 t3 : Table) :
    (Table.vstack [t1, t2, t3]).colnames =
      dedupFirst ([t1, t2, t3].map Table.colnames).flatten := by
  show ((dedupFirst ([t1, t2, t3].map Table.colnames).flatten).map _).map
    Column.name = _
  rw [List.map_map]
  exact List.map_id'' (fun nm => rfl) _

/-- Filling flag columns preserves the row count. -/
theorem nrows_fillFlagMasked (t : Table) : t.fillFlagMasked.nrows = t.nrows := by
  unfold Table.fillFlagMasked
  exact nrows_mk_map _ (fun c => by by_cases h : containsFlag c.name <;> simp [h]) t

/-- Filling flag columns preserves well-formedness. -/
theorem WF_fillFlagMasked (t : Table) (h : t.WF) : t.fillFlagMasked.WF := by
  unfold Table.fillFlagMasked
  exact WF_mapCols t _ (fun c => by by_cases hc : containsFlag c.name <;> simp [hc]) h

/-- Filling flag columns preserves column presence. -/
theorem isSome_getCol_fillFlagMasked (t : Table) (nm : String) :
    (t.fillFlagMasked.getCol nm).isSome = (t.getCol nm).isSome := by
  unfold Table.fillFlagMasked
  exact isSome_getCol_mapCols t _
    (fun c => by by_cases hc : containsFlag c.name <;> simp [hc]) nm

/-- Or-combining two columns of a well-formed table preserves the row count. -/
theorem nrows_orCols (t : Table) (dst src : String) (hWF : t.WF) :
    (t.orCols dst src).nrows = t.nrows := by
  unfold Table.orCols
  rcases hs : t.getCol src with _ | s
  · rfl
  · refine nrows_modifyCol_mem _ _ _ ?_
    intro c hc
    rw [List.length_zipWith, hWF c hc, hWF s (mem_of_getCol_eq_some hs)]
    simp

/-- Or-combining two columns preserves well-formedness. -/
theorem WF_orCols (t : Table) (dst src : String) (hWF : t.WF) :
    (t.orCols dst src).WF := by
  unfold Table.orCols
  rcases hs : t.getCol src with _ | s
  · exact hWF
  · refine WF_modifyCol_mem _ _ _ ?_ hWF
    intro c hc
    rw [List.length_zipWith, hWF c hc, hWF s (mem_of_getCol_eq_some hs)]
    simp

/-- Or-combining two columns preserves column presence. -/
theorem isSome_getCol_orCols (t : Table) (dst src nm : String) :
    ((t.orCols dst src).getCol nm).isSome = (t.getCol nm).isSome := by
  unfold Table.orCols
  rcases hs : t.getCol src with _ | s
  · rfl
  · exact isSome_getCol_modifyCol t nm dst _ (fun c => rfl)

/-- The `flag_merged` column is present on the stacked output. -/
theorem isSome_getCol_mergeStacked_fm (cat_1 cat_2 : Table)
    (racol_2 decol_2 : String) (pairs : List CrossPair) :
    ((mergeStacked cat_1 cat_2 racol_2 decol_2 pairs).getCol
      "flag_merged").isSome = true := by
  unfold mergeStacked
  exact isSome_getCol_vstack3_of_mem1 _ _ _ _
    (mem_colnames_of_isSome (isSome_getCol_mergeOnly1_fm cat_1 pairs))

/-- C7: the merged catalogue is the vertical concatenation of the
only-in-cat_1 block, the matched block and the only-in-cat_2 block, in this
order — every stacked column holds the three blocks' cells concatenated in
block order — the blocks have `n1 - m`, `m` and `n2 - m` rows where `m` is
the number of committed matches, and the returned catalogue has
`n1 + n2 - m` rows, never more than `n1 + n2` and never fewer than
`max n1 n2`. -/
theorem merge_output_shape (cat_1 cat_2 : Table) (racol_2 decol_2 : String)
    (pairs : List CrossPair)
    (hrange1 : ∀ p ∈ pairs, cpIdx1 p < cat_1.nrows)
    (hrange2 : ∀ p ∈ pairs, cpIdx2 p < cat_2.nrows)
    (hner : racol_2 ≠ "flag_merged") (hned : decol_2 ≠ "flag_merged") :
    (∀ nm c, (mergeStacked cat_1 cat_2 racol_2 decol_2 pairs).getCol nm = some c →
      c.data = vstackContrib nm (mergeOnly1 cat_1 pairs) ++
        vstackContrib nm (mergeBoth cat_1 cat_2 racol_2 decol_2 pairs) ++
        vstackContrib nm (mergeOnly2 cat_2 racol_2 decol_2 pairs)) ∧
    (mergeOnly1 cat_1 pairs).nrows = cat_1.nrows - (mergeMatches pairs).length ∧
    (mergeBoth cat_1 cat_2 racol_2 decol_2 pairs).nrows =
      (mergeMatches pairs).length ∧
    (mergeOnly2 cat_2 racol_2 decol_2 pairs).nrows =
      cat_2.nrows - (mergeMatches pairs).length ∧
    (merge_catalogues cat_1 cat_2 racol_2 decol_2 pairs).2.2.nrows +
      (mergeMatches pairs).length = cat_1.nrows + cat_2.nrows ∧
    (merge_catalogues cat_1 cat_2 racol_2 decol_2 pairs).2.2.nrows ≤
      cat_1.nrows + cat_2.nrows ∧
    max cat_1.nrows cat_2.nrows ≤
      (merge_catalogues cat_1 cat_2 racol_2 decol_2 pairs).2.2.nrows := by
  have hm1 : (mergeMatches pairs).length ≤ cat_1.nrows :=
    length_mergeMatches_le1 cat_1 pairs hrange1
  have hm2 : (mergeMatches pairs).length ≤ cat_2.nrows :=
    length_mergeMatches_le2 cat_2 pairs hrange2
  have hb1 := nrows_mergeOnly1 cat_1 pairs hrange1
  have hb2 := nrows_mergeBoth cat_1 cat_2 racol_2 decol_2 pairs hner hned
  have hb3 := nrows_mergeOnly2 cat_2 racol_2 decol_2 pairs hrange2
  have hWFb1 := WF_mergeOnly1 cat_1 pairs
  have hWFb2 := WF_mergeBoth cat_1 cat_2 racol_2 decol_2 pairs
  have hWFb3 := WF_mergeOnly2 cat_2 racol_2 decol_2 pairs
  have hstk : (mergeStacked cat_1 cat_2 racol_2 decol_2 pairs).nrows =
      (cat_1.nrows - (mergeMatches pairs).length) + (mergeMatches pairs).length +
        (cat_2.nrows - (mergeMatches pairs).length) := by
    unfold mergeStacked
    rw [nrows_vstack3 _ _ _ hWFb1 hWFb2 hWFb3, hb1, hb2, hb3]
  have hWFstk : (mergeStacked cat_1 cat_2 racol_2 decol_2 pairs).WF := by
    unfold mergeStacked
    exact WF_vstack3 _ _ _ hWFb1 hWFb2 hWFb3
  have hWFf := WF_fillFlagMasked _ hWFstk
  have hWFo : ((((mergeStacked cat_1 cat_2 racol_2 decol_2
      pairs).fillFlagMasked).orCols "flag_merged" "flag_merged_2")).WF :=
    WF_orCols _ _ _ hWFf
  have hmerged : (merge_catalogues cat_1 cat_2 racol_2 decol_2 pairs).2.2 =
      (((mergeStacked cat_1 cat_2 racol_2 decol_2 pairs).fillFlagMasked).orCols
        "flag_merged" "flag_merged_2").removeColumnsByName ["flag_merged_2"] := rfl
  have hkeep : ((merge_catalogues cat_1 cat_2 racol_2 decol_2 pairs).2.2.getCol
      "flag_merged").isSome = true := by
    rw [hmerged, getCol_removeColumns_ne _ _ _ (by decide), isSome_getCol_orCols,
      isSome_getCol_fillFlagMasked]
    exact isSome_getCol_mergeStacked_fm cat_1 cat_2 racol_2 decol_2 pairs
  obtain ⟨c, hc⟩ := Option.isSome_iff_exists.mp hkeep
  have hnmerged : (merge_catalogues cat_1 cat_2 racol_2 decol_2 pairs).2.2.nrows =
      (mergeStacked cat_1 cat_2 racol_2 decol_2 pairs).nrows := by
    rw [hmerged, nrows_removeColumns_of_mem _ _ hWFo c
        (mem_of_getCol_eq_some (by rw [← hmerged]; exact hc)),
      nrows_orCols _ _ _ hWFf, nrows_fillFlagMasked]
  refine ⟨?_, hb1, hb2, hb3, ?_, ?_, ?_⟩
  · intro nm c2 hgc
    have hgc2 : (Table.vstack [mergeOnly1 cat_1 pairs,
        mergeBoth cat_1 cat_2 racol_2 decol_2 pairs,
        mergeOnly2 cat_2 racol_2 decol_2 pairs]).getCol nm = some c2 := hgc
    have his : ((Table.vstack [mergeOnly1 cat_1 pairs,
        mergeBoth cat_1 cat_2 racol_2 decol_2 pairs,
        mergeOnly2 cat_2 racol_2 decol_2 pairs]).getCol nm).isSome = true := by
      rw [hgc2]
      rfl
    have hmemn := mem_colnames_of_isSome his
    rw [colnames_vstack3] at hmemn
    rw [getCol_vstack3 _ _ _ nm hmemn] at hgc2
    have hce := Option.some.inj hgc2
    rw [← hce]
    show ([mergeOnly1 cat_1 pairs, mergeBoth cat_1 cat_2 racol_2 decol_2 pairs,
      mergeOnly2 cat_2 racol_2 decol_2 pairs].map (vstackContrib nm)).flatten = _
    simp [List.append_assoc]
  · rw [hnmerged, hstk]
    omega
  · rw [hnmerged, hstk]
    omega
  · rw [hnmerged, hstk]
    omega

/-- Concrete witness for the merge output shape. -/
theorem merge_output_shape_witness :
    exT.WF ∧ exT2.WF ∧
      (merge_catalogues exT exT2 "RA" "DEC" [(0, 0, (0 : ℚ))]).2.2.nrows +
        (mergeMatches [(0, 0, (0 : ℚ))]).length = exT.nrows + exT2.nrows := by
  refine ⟨by unfold Table.WF; decide, by unfold Table.WF; decide, ?_⟩
  exact (merge_output_shape exT exT2 "RA" "DEC" [(0, 0, (0 : ℚ))]
    (by decide) (by decide) (by decide) (by decide)).2.2.2.2.1

/-- Membership in the multi-occurrence list: more than one occurrence. -/
theorem mem_multiOcc (l : List Nat) (i : Nat) : i ∈ multiOcc l ↔ 1 < l.count i := by
  unfold multiOcc
  rw [List.mem_filter, mem_dedupFirst]
  simp only [decide_eq_true_eq]
  constructor
  · exact fun h => h.2
  · intro h
    exact ⟨List.count_pos_iff.mp (by omega), h⟩

/-- C6: a row of either catalogue is flagged as ambiguous exactly when it
occurs in more than one oracle cross pair, or it occurs in some cross pair
whose counterpart row occurs in more than one cross pair — a single
propagation pass over the direct multi-match flags, with no further
closure. -/
theorem merge_ambiguity_flags (pairs : List CrossPair) (i : Nat) :
    (i ∈ mergeToflag1 pairs ↔
      1 < (pairs.map cpIdx1).count i ∨
        ∃ p ∈ pairs, cpIdx1 p = i ∧ 1 < (pairs.map cpIdx2).count (cpIdx2 p)) ∧
    (i ∈ mergeToflag2 pairs ↔
      1 < (pairs.map cpIdx2).count i ∨
        ∃ p ∈ pairs, cpIdx2 p = i ∧ 1 < (pairs.map cpIdx1).count (cpIdx1 p)) := by
  constructor
  · unfold mergeToflag1
    rw [mem_dedupFirst, List.mem_append]
    show i ∈ multiOcc (pairs.map cpIdx1) ∨ _ ↔ _
    rw [mem_multiOcc]
    constructor
    · rintro (h | h)
      · exact Or.inl h
      · obtain ⟨p, hp, hpe⟩ := List.mem_map.mp h
        obtain ⟨hpmem, hpflag⟩ := List.mem_filter.mp hp
        refine Or.inr ⟨p, hpmem, hpe, ?_⟩
        have hdm : cpIdx2 p ∈ multiOcc (pairs.map cpIdx2) :=
          of_decide_eq_true hpflag
        exact (mem_multiOcc _ _).mp hdm
    · rintro (h | ⟨p, hp, hpe, hcnt⟩)
      · exact Or.inl h
      · refine Or.inr (List.mem_map.mpr ⟨p, List.mem_filter.mpr ⟨hp, ?_⟩, hpe⟩)
        exact decide_eq_true ((mem_multiOcc (pairs.map cpIdx2) (cpIdx2 p)).mpr hcnt)
  · unfold mergeToflag2
    rw [mem_dedupFirst, List.mem_append]
    show i ∈ multiOcc (pairs.map cpIdx2) ∨ _ ↔ _
    rw [mem_multiOcc]
    constructor
    · rintro (h | h)
      · exact Or.inl h
      · obtain ⟨p, hp, hpe⟩ := List.mem_map.mp h
        obtain ⟨hpmem, hpflag⟩ := List.mem_filter.mp hp
        refine Or.inr ⟨p, hpmem, hpe, ?_⟩
        have hdm : cpIdx1 p ∈ multiOcc (pairs.map cpIdx1) :=
          of_decide_eq_true hpflag
        exact (mem_multiOcc _ _).mp hdm
    · rintro (h | ⟨p, hp, hpe, hcnt⟩)
      · exact Or.inl h
      · refine Or.inr (List.mem_map.mpr ⟨p, List.mem_filter.mpr ⟨hp, ?_⟩, hpe⟩)
        exact decide_eq_true ((mem_multiOcc (pairs.map cpIdx1) (cpIdx1 p)).mpr hcnt)

/-- Filling never leaves a masked cell. -/
theorem fillFalse_ne_masked (v : Val) : fillFalse v ≠ Val.masked := by
  unfold fillFalse
  by_cases hv : v = Val.masked
  · simp [hv]
  · simp [hv]

/-- Column lookup after the flag-fill loop. -/
theorem getCol_fillFlagMasked (t : Table) (nm : String) :
    t.fillFlagMasked.getCol nm = (t.getCol nm).map
      (fun c => if containsFlag c.name then { c with data := c.data.map fillFalse }
        else c) := by
  unfold Table.fillFlagMasked
  exact getCol_mapCols t _
    (fun c => by by_cases hc : containsFlag c.name <;> simp [hc]) nm

/-- Flag-named columns carry no masked cell after the fill loop. -/
theorem no_masked_fillFlagMasked (t : Table) (nm : String) (c : Column)
    (hflag : containsFlag nm = true) (hc : t.fillFlagMasked.getCol nm = some c) :
    Val.masked ∉ c.data := by
  rw [getCol_fillFlagMasked] at hc
  rcases hg : t.getCol nm with _ | c0
  · rw [hg] at hc
    cases hc
  · rw [hg] at hc
    have hcf : containsFlag c0.name = true := by
      rw [name_of_getCol_eq_some hg]
      exact hflag
    have hce := Option.some.inj hc
    have hce2 : (if containsFlag c0.name = true then
        { c0 with data := c0.data.map fillFalse } else c0) = c := hce
    rw [if_pos hcf] at hce2
    rw [← hce2]
    intro hmem
    have hmem2 : Val.masked ∈ c0.data.map fillFalse := hmem
    obtain ⟨v, _, hv⟩ := List.mem_map.mp hmem2
    exact fillFalse_ne_masked v hv

/-- Or-combining with a present source column maps the destination lookup. -/
theorem getCol_orCols_eq (t : Table) (dst src : String) (s : Column)
    (hs : t.getCol src = some s) :
    (t.orCols dst src).getCol dst = (t.getCol dst).map
      (fun c => { c with data := c.data.zipWith orVal s.data }) := by
  unfold Table.orCols
  rw [hs]
  exact getCol_modifyCol_eq t dst _ (fun c => rfl)

/-- A list element read by total indexing within range is a member. -/
theorem getD_mem_of_lt {α : Type} (l : List α) (j : Nat) (h : j < l.length)
    (d : α) : l.getD j d ∈ l := by
  rw [List.getD_eq_getElem _ _ h]
  exact List.getElem_mem h

/-- A value distinct from two list entries is not a member of their pair. -/
theorem not_mem_pair {α : Type} {a b c : α} (h1 : b ≠ a) (h2 : c ≠ a) :
    a ∉ [b, c] := by
  intro hmem
  rcases List.mem_cons.mp hmem with h | hmem2
  · exact h1 h.symm
  · rcases List.mem_cons.mp hmem2 with h | h
    · exact h2 h.symm
    · simp at h

/-- The cells of a looked-up column. -/
theorem colData_eq_of_getCol {t : Table} {nm : String} {c : Column}
    (h : t.getCol nm = some c) : t.colData nm = c.data := by
  unfold Table.colData
  rw [h]

/-- The stack contribution of a table having the column. -/
theorem vstackContrib_eq_colData (t : Table) (nm : String)
    (h : (t.getCol nm).isSome = true) : vstackContrib nm t = t.colData nm := by
  obtain ⟨c, hc⟩ := Option.isSome_iff_exists.mp h
  unfold vstackContrib Table.colData
  rw [hc]

/-- The stack contribution of a table missing the column. -/
theorem vstackContrib_eq_replicate (t : Table) (nm : String)
    (h : t.getCol nm = none) :
    vstackContrib nm t = List.replicate t.nrows Val.masked := by
  unfold vstackContrib
  rw [h]

/-- Cells of a present column after a row selection. -/
theorem colData_selectRows (t : Table) (idxs : List Nat) (nm : String)
    (h : (t.getCol nm).isSome = true) :
    (t.selectRows idxs).colData nm =
      idxs.map (fun k => (t.colData nm).getD k Val.masked) := by
  obtain ⟨c, hc⟩ := Option.isSome_iff_exists.mp h
  rw [colData_eq_of_getCol (show (t.selectRows idxs).getCol nm = some
      { c with data := idxs.map (fun k => c.data.getD k Val.masked) } by
    rw [getCol_selectRows, hc]
    rfl), colData_eq_of_getCol hc]

/-- Cells of a stacked column over three tables. -/
theorem colData_vstack3 (t1 t2 t3 : Table) (nm : String)
    (hmem : nm ∈ dedupFirst ([t1, t2, t3].map Table.colnames).flatten) :
    (Table.vstack [t1, t2, t3]).colData nm =
      vstackContrib nm t1 ++ (vstackContrib nm t2 ++ vstackContrib nm t3) := by
  rw [colData_eq_of_getCol (getCol_vstack3 t1 t2 t3 nm hmem)]
  simp

/-- Cells of a flag-named column after the fill loop. -/
theorem colData_fillFlagMasked_flag (t : Table) (nm : String)
    (hflag : containsFlag nm = true) :
    t.fillFlagMasked.colData nm = (t.colData nm).map fillFalse := by
  rcases hg : t.getCol nm with _ | c
  · unfold Table.colData
    rw [getCol_fillFlagMasked, hg]
    rfl
  · have hcf : containsFlag c.name = true := by
      rw [name_of_getCol_eq_some hg]
      exact hflag
    have hfill : t.fillFlagMasked.getCol nm =
        some { c with data := c.data.map fillFalse } := by
      rw [getCol_fillFlagMasked, hg]
      show some (if containsFlag c.name = true then
        { c with data := c.data.map fillFalse } else c) = _
      rw [if_pos hcf]
    rw [colData_eq_of_getCol hfill, colData_eq_of_getCol hg]

/-- Cells after or-combining with a present source column. -/
theorem colData_orCols_eq (t : Table) (dst src : String) (s : Column)
    (hs : t.getCol src = some s) :
    (t.orCols dst src).colData dst = (t.colData dst).zipWith orVal s.data := by
  rcases hd : t.getCol dst with _ | d
  · unfold Table.colData
    rw [getCol_orCols_eq t dst src s hs, hd]
    rfl
  · rw [colData_eq_of_getCol (show (t.orCols dst src).getCol dst = some
        { d with data := d.data.zipWith orVal s.data } by
      rw [getCol_orCols_eq t dst src s hs, hd]
      rfl), colData_eq_of_getCol hd]

/-- Cells are untouched when removing other columns. -/
theorem colData_removeColumns_ne (t : Table) (nms : List String) (nm : String)
    (h : nm ∉ nms) : (t.removeColumnsByName nms).colData nm = t.colData nm := by
  unfold Table.colData
  rw [getCol_removeColumns_ne t nms nm h]

/-- Cells of a left-present column in a horizontal stack. -/
theorem colData_hstack_left (t1 t2 : Table) (nm : String)
    (h : (t1.getCol nm).isSome = true) :
    (Table.hstack t1 t2).colData nm = t1.colData nm := by
  unfold Table.colData
  rw [getCol_hstack_of_isSome t1 t2 nm h]

/-- Cells of a left-absent column in a horizontal stack. -/
theorem colData_hstack_right (t1 t2 : Table) (nm : String)
    (h : t1.getCol nm = none) :
    (Table.hstack t1 t2).colData nm = t2.colData nm := by
  unfold Table.colData
  rw [getCol_hstack_of_none t1 t2 nm h]

/-- Stage-B cat_1 with a pre-existing `flag_merged` column: the flag cells
are or-combined with the ambiguity mask. -/
theorem getCol_mergeCat1Flagged_fm_some (cat_1 : Table) (pairs : List CrossPair)
    (c0 : Column) (hfm : cat_1.getCol "flag_merged" = some c0) :
    (mergeCat1Flagged cat_1 pairs).getCol "flag_merged" =
      some { c0 with
        data := c0.data.zipWith orVal ((mergeFlagMask1 cat_1.nrows pairs).map Val.bool) } := by
  have hgu : ((cat_1.setUnit "ra" "deg").setUnit "dec" "deg").getCol
      "flag_merged" = some c0 := by
    rw [getCol_setUnit_ne _ _ _ _ (by decide), getCol_setUnit_ne _ _ _ _ (by decide)]
    exact hfm
  simp only [mergeCat1Flagged]
  rw [if_pos (by rw [hgu]; rfl)]
  unfold Table.orMask
  rw [getCol_modifyCol_eq _ _ _ (by intro c; rfl), hgu]
  rfl

/-- Stage-B cat_1 never gains a `flag_merged_2` column. -/
theorem getCol_mergeCat1Flagged_fm2_none (cat_1 : Table) (pairs : List CrossPair)
    (hfree1 : "flag_merged_2" ∉ cat_1.colnames) :
    (mergeCat1Flagged cat_1 pairs).getCol "flag_merged_2" = none := by
  have hgu : ((cat_1.setUnit "ra" "deg").setUnit "dec" "deg").getCol
      "flag_merged_2" = none := by
    rw [getCol_setUnit_ne _ _ _ _ (by decide), getCol_setUnit_ne _ _ _ _ (by decide),
      getCol_eq_none_iff]
    exact hfree1
  simp only [mergeCat1Flagged]
  by_cases h : (((cat_1.setUnit "ra" "deg").setUnit "dec" "deg").getCol
      "flag_merged").isSome = true
  · rw [if_pos h]
    unfold Table.orMask
    rw [getCol_modifyCol_ne _ _ _ _ (by intro c; rfl) (by decide)]
    exact hgu
  · rw [if_neg h, getCol_addColumn_ne]
    · exact hgu
    · show "flag_merged" ≠ "flag_merged_2"
      decide

/-- Value of the or-combined, fill-completed flag stack at an unmatched
row position. -/
theorem orfill_getD_unmatched (FD G L3 L3p : List Val) (u M1 M2 : List Nat)
    (i : Nat) (hiu : i ∈ u)
    (hFDi : FD.getD i Val.masked = Val.bool true) :
    (((u.map (fun k => FD.getD k Val.masked) ++
        (M1.map (fun k => FD.getD k Val.masked) ++ L3)).map fillFalse).zipWith orVal
      ((List.replicate u.length Val.masked ++
        (M2.map (fun k => G.getD k Val.masked) ++ L3p)).map fillFalse)).getD
      (u.indexOf i) Val.masked = Val.bool true := by
  have hpos : u.indexOf i < u.length := List.indexOf_lt_length.mpr hiu
  rw [getD_zipWith_lt orVal _ _ (u.indexOf i)
      (by simp only [List.length_map, List.length_append]; omega)
      (by simp only [List.length_map, List.length_append, List.length_replicate]
          omega)
      Val.masked Val.masked Val.masked,
    getD_map_of_lt fillFalse _ (u.indexOf i)
      (by simp only [List.length_map, List.length_append]; omega) Val.masked
      Val.masked,
    getD_map_of_lt fillFalse _ (u.indexOf i)
      (by simp only [List.length_map, List.length_append, List.length_replicate]
          omega) Val.masked
      Val.masked,
    getD_append_left (u.map (fun k => FD.getD k Val.masked)) _ _
      (by simp only [List.length_map]; exact hpos) _,
    getD_append_left (List.replicate u.length Val.masked) _ _
      (by simp only [List.length_replicate]; exact hpos) _,
    getD_map_of_lt _ u (u.indexOf i) hpos Val.masked 0,
    getD_indexOf u i hiu 0, hFDi,
    getD_replicate_lt u.length (u.indexOf i) Val.masked Val.masked hpos]
  rfl

/-- Value of the or-combined, fill-completed flag stack at a matched row
position. -/
theorem orfill_getD_matched (FD G L3 L3p : List Val) (u M1 M2 : List Nat)
    (i : Nat) (him : i ∈ M1) (hMM : M1.length = M2.length)
    (hFDi : FD.getD i Val.masked = Val.bool true)
    (hbool : ∀ k ∈ M2, ∃ b, G.getD k Val.masked = Val.bool b) :
    (((u.map (fun k => FD.getD k Val.masked) ++
        (M1.map (fun k => FD.getD k Val.masked) ++ L3)).map fillFalse).zipWith orVal
      ((List.replicate u.length Val.masked ++
        (M2.map (fun k => G.getD k Val.masked) ++ L3p)).map fillFalse)).getD
      (u.length + M1.indexOf i) Val.masked = Val.bool true := by
  have hj : M1.indexOf i < M1.length := List.indexOf_lt_length.mpr him
  have hk : M2.getD (M1.indexOf i) 0 ∈ M2 := getD_mem_of_lt M2 _ (by omega) 0
  obtain ⟨b, hb⟩ := hbool _ hk
  rw [getD_zipWith_lt orVal _ _ (u.length + M1.indexOf i)
      (by simp only [List.length_map, List.length_append]; omega)
      (by simp only [List.length_map, List.length_append, List.length_replicate]
          omega)
      Val.masked Val.masked Val.masked,
    getD_map_of_lt fillFalse _ (u.length + M1.indexOf i)
      (by simp only [List.length_map, List.length_append]; omega) Val.masked
      Val.masked,
    getD_map_of_lt fillFalse _ (u.length + M1.indexOf i)
      (by simp only [List.length_map, List.length_append, List.length_replicate]
          omega) Val.masked
      Val.masked,
    getD_append_right (u.map (fun k => FD.getD k Val.masked)) _ _
      (by simp only [List.length_map]; omega) _,
    getD_append_right (List.replicate u.length Val.masked) _ _
      (by simp only [List.length_replicate]; omega) _]
  simp only [List.length_map, List.length_replicate]
  rw [show u.length + M1.indexOf i - u.length = M1.indexOf i from by omega,
    getD_append_left (M1.map (fun k => FD.getD k Val.masked)) _ _
      (by simp only [List.length_map]; omega) _,
    getD_append_left (M2.map (fun k => G.getD k Val.masked)) _ _
      (by simp only [List.length_map]; omega) _,
    getD_map_of_lt _ M1 (M1.indexOf i) hj Val.masked 0,
    getD_indexOf M1 i him 0, hFDi,
    getD_map_of_lt _ M2 (M1.indexOf i) (by omega) Val.masked 0,
    hb]
  simp [orVal, fillFalse]

/-- C8: flag monotonicity — a cat_1 row whose pre-existing `flag_merged`
cell is `True` on input keeps `flag_merged = True` in its output row of the
merged catalogue (the column is carried forward by logical OR and never
reset), and after stacking every flag-named column has its masked cells
filled with `False` rather than left undefined. -/
theorem merge_flag_monotone (cat_1 cat_2 : Table) (racol_2 decol_2 : String)
    (pairs : List CrossPair) (i : Nat) (c0 : Column)
    (hWF1 : cat_1.WF)
    (hrange2 : ∀ p ∈ pairs, cpIdx2 p < cat_2.nrows)
    (hner : racol_2 ≠ "flag_merged") (hned : decol_2 ≠ "flag_merged")
    (hner2 : racol_2 ≠ "flag_merged_2") (hned2 : decol_2 ≠ "flag_merged_2")
    (hfree1 : "flag_merged_2" ∉ cat_1.colnames)
    (hfree2 : "flag_merged_2" ∉ cat_2.colnames)
    (hfm : cat_1.getCol "flag_merged" = some c0)
    (hil : i < cat_1.nrows)
    (htrue : cat_1.cellD "flag_merged" i = Val.bool true) :
    (merge_catalogues cat_1 cat_2 racol_2 decol_2 pairs).2.2.cellD "flag_merged"
      (mergeOutPos cat_1.nrows pairs i) = Val.bool true ∧
    (∀ nm c, containsFlag nm = true →
      ((mergeStacked cat_1 cat_2 racol_2 decol_2 pairs).fillFlagMasked).getCol nm =
        some c → Val.masked ∉ c.data) := by
  refine ⟨?_, fun nm c hflag hc => no_masked_fillFlagMasked _ nm c hflag hc⟩
  have hT1some := isSome_getCol_mergeCat1Flagged_fm cat_1 pairs
  have hT1col : (mergeCat1Flagged cat_1 pairs).colData "flag_merged" =
      c0.data.zipWith orVal ((mergeFlagMask1 cat_1.nrows pairs).map Val.bool) :=
    colData_eq_of_getCol (getCol_mergeCat1Flagged_fm_some cat_1 pairs c0 hfm)
  have hO1some : ((mergeOnly1 cat_1 pairs).getCol "flag_merged").isSome = true :=
    isSome_getCol_mergeOnly1_fm cat_1 pairs
  have honly1 : (mergeOnly1 cat_1 pairs).colData "flag_merged" =
      (mergeUnmatchedIdx1 cat_1.nrows pairs).map (fun k =>
        (c0.data.zipWith orVal ((mergeFlagMask1 cat_1.nrows pairs).map
          Val.bool)).getD k Val.masked) := by
    unfold mergeOnly1
    rw [colData_selectRows _ _ _ hT1some, hT1col]
  have honly1n : (mergeOnly1 cat_1 pairs).getCol "flag_merged_2" = none := by
    unfold mergeOnly1
    rw [getCol_selectRows, getCol_mergeCat1Flagged_fm2_none cat_1 pairs hfree1]
    rfl
  have hBsome := isSome_getCol_mergeBoth_fm cat_1 cat_2 racol_2 decol_2 pairs
    hner hned
  have hAsome : (((mergeCat1Flagged cat_1 pairs).selectRows
      (mergeMatchIdx1 pairs)).getCol "flag_merged").isSome = true := by
    rw [isSome_getCol_selectRows]
    exact hT1some
  have hboth : (mergeBoth cat_1 cat_2 racol_2 decol_2 pairs).colData
      "flag_merged" = (mergeMatchIdx1 pairs).map (fun k =>
        (c0.data.zipWith orVal ((mergeFlagMask1 cat_1.nrows pairs).map
          Val.bool)).getD k Val.masked) := by
    unfold mergeBoth
    rw [colData_removeColumns_ne _ _ _ (not_mem_pair hner hned),
      colData_hstack_left _ _ _ hAsome, colData_selectRows _ _ _ hT1some, hT1col]
  have hAnone2 : (((mergeCat1Flagged cat_1 pairs).selectRows
      (mergeMatchIdx1 pairs)).getCol "flag_merged_2") = none := by
    rw [getCol_selectRows, getCol_mergeCat1Flagged_fm2_none cat_1 pairs hfree1]
    rfl
  have hB2col := getCol_mergeCat2Flagged_fm2 cat_2 racol_2 decol_2 pairs hfree2
  have hB2some : ((mergeCat2Flagged cat_2 racol_2 decol_2 pairs).getCol
      "flag_merged_2").isSome = true := by
    rw [hB2col]
    rfl
  have hboth2 : (mergeBoth cat_1 cat_2 racol_2 decol_2 pairs).colData
      "flag_merged_2" = (mergeMatchIdx2 pairs).map (fun k =>
        (((mergeFlagMask2 cat_2.nrows pairs).map Val.bool)).getD k Val.masked) := by
    unfold mergeBoth
    rw [colData_removeColumns_ne _ _ _ (not_mem_pair hner2 hned2),
      colData_hstack_right _ _ _ hAnone2, colData_selectRows _ _ _ hB2some,
      colData_eq_of_getCol hB2col]
  have hbothsome2 : ((mergeBoth cat_1 cat_2 racol_2 decol_2 pairs).getCol
      "flag_merged_2").isSome = true := by
    unfold mergeBoth
    rw [getCol_removeColumns_ne _ _ _ (not_mem_pair hner2 hned2),
      getCol_hstack_of_none _ _ _ hAnone2, isSome_getCol_selectRows]
    exact hB2some
  have hstkdef : mergeStacked cat_1 cat_2 racol_2 decol_2 pairs =
      Table.vstack [mergeOnly1 cat_1 pairs,
        mergeBoth cat_1 cat_2 racol_2 decol_2 pairs,
        mergeOnly2 cat_2 racol_2 decol_2 pairs] := rfl
  have hmemfm : "flag_merged" ∈ dedupFirst
      ([mergeOnly1 cat_1 pairs, mergeBoth cat_1 cat_2 racol_2 decol_2 pairs,
        mergeOnly2 cat_2 racol_2 decol_2 pairs].map Table.colnames).flatten := by
    rw [mem_dedupFirst]
    simp only [List.map_cons, List.map_nil, List.flatten_cons, List.flatten_nil,
      List.append_nil, List.mem_append]
    exact Or.inl (mem_colnames_of_isSome hO1some)
  have hmemfm2 : "flag_merged_2" ∈ dedupFirst
      ([mergeOnly1 cat_1 pairs, mergeBoth cat_1 cat_2 racol_2 decol_2 pairs,
        mergeOnly2 cat_2 racol_2 decol_2 pairs].map Table.colnames).flatten := by
    rw [mem_dedupFirst]
    simp only [List.map_cons, List.map_nil, List.flatten_cons, List.flatten_nil,
      List.append_nil, List.mem_append]
    exact Or.inr (Or.inl (mem_colnames_of_isSome hbothsome2))
  have hn1u : (mergeOnly1 cat_1 pairs).nrows =
      (mergeUnmatchedIdx1 cat_1.nrows pairs).length := by
    unfold mergeOnly1
    exact nrows_selectRows _ _ (cols_mergeCat1Flagged_ne_nil cat_1 pairs)
  have hstk1 : (mergeStacked cat_1 cat_2 racol_2 decol_2 pairs).colData
      "flag_merged" =
      (mergeUnmatchedIdx1 cat_1.nrows pairs).map (fun k =>
        (c0.data.zipWith orVal ((mergeFlagMask1 cat_1.nrows pairs).map
          Val.bool)).getD k Val.masked) ++
      ((mergeMatchIdx1 pairs).map (fun k =>
        (c0.data.zipWith orVal ((mergeFlagMask1 cat_1.nrows pairs).map
          Val.bool)).getD k Val.masked) ++
        vstackContrib "flag_merged" (mergeOnly2 cat_2 racol_2 decol_2 pairs)) := by
    rw [hstkdef, colData_vstack3 _ _ _ _ hmemfm,
      vstackContrib_eq_colData _ _ hO1some, honly1,
      vstackContrib_eq_colData _ _ hBsome, hboth]
  have hstk2 : (mergeStacked cat_1 cat_2 racol_2 decol_2 pairs).colData
      "flag_merged_2" =
      List.replicate (mergeUnmatchedIdx1 cat_1.nrows pairs).length Val.masked ++
      ((mergeMatchIdx2 pairs).map (fun k =>
        (((mergeFlagMask2 cat_2.nrows pairs).map Val.bool)).getD k Val.masked) ++
        vstackContrib "flag_merged_2" (mergeOnly2 cat_2 racol_2 decol_2 pairs)) := by
    rw [hstkdef, colData_vstack3 _ _ _ _ hmemfm2,
      vstackContrib_eq_replicate _ _ honly1n, hn1u,
      vstackContrib_eq_colData _ _ hbothsome2, hboth2]
  have hstk2some : ((mergeStacked cat_1 cat_2 racol_2 decol_2 pairs).getCol
      "flag_merged_2").isSome = true := by
    rw [hstkdef, getCol_vstack3 _ _ _ _ hmemfm2]
    rfl
  have hfill2some : (((mergeStacked cat_1 cat_2 racol_2 decol_2
      pairs).fillFlagMasked).getCol "flag_merged_2").isSome = true := by
    rw [isSome_getCol_fillFlagMasked]
    exact hstk2some
  obtain ⟨fs, hs⟩ := Option.isSome_iff_exists.mp hfill2some
  have hsdata : fs.data = ((mergeStacked cat_1 cat_2 racol_2 decol_2
      pairs).colData "flag_merged_2").map fillFalse := by
    rw [← colData_eq_of_getCol hs, colData_fillFlagMasked_flag _ _ (by decide)]
  have hfinal : (merge_catalogues cat_1 cat_2 racol_2 decol_2 pairs).2.2.colData
      "flag_merged" =
      (((mergeStacked cat_1 cat_2 racol_2 decol_2 pairs).colData
        "flag_merged").map fillFalse).zipWith orVal
      (((mergeStacked cat_1 cat_2 racol_2 decol_2 pairs).colData
        "flag_merged_2").map fillFalse) := by
    show ((((mergeStacked cat_1 cat_2 racol_2 decol_2 pairs).fillFlagMasked).orCols
      "flag_merged" "flag_merged_2").removeColumnsByName
      ["flag_merged_2"]).colData "flag_merged" = _
    rw [colData_removeColumns_ne _ _ _ (by decide),
      colData_orCols_eq _ _ _ fs hs, colData_fillFlagMasked_flag _ _ (by decide),
      hsdata]
  have hFDi : (c0.data.zipWith orVal ((mergeFlagMask1 cat_1.nrows pairs).map
      Val.bool)).getD i Val.masked = Val.bool true := by
    have hlen0 : c0.data.length = cat_1.nrows := hWF1 c0 (mem_of_getCol_eq_some hfm)
    have htrue2 : c0.data.getD i Val.masked = Val.bool true := by
      unfold Table.cellD Table.colData at htrue
      rw [hfm] at htrue
      exact htrue
    rw [getD_zipWith_lt orVal c0.data _ i (by omega)
        (by simp only [List.length_map, mergeFlagMask1, List.length_range]
            exact hil)
        Val.masked Val.masked (Val.bool false), htrue2,
      getD_map_of_lt Val.bool _ i
        (by simp only [mergeFlagMask1, List.length_map, List.length_range]
            exact hil)
        (Val.bool false) false]
    rfl
  unfold Table.cellD
  rw [hfinal, hstk1, hstk2]
  unfold mergeOutPos
  by_cases him : i ∈ mergeMatchIdx1 pairs
  · rw [if_pos him]
    have hMM : (mergeMatchIdx1 pairs).length = (mergeMatchIdx2 pairs).length := by
      unfold mergeMatchIdx1 mergeMatchIdx2
      rw [List.length_map, List.length_map]
    refine orfill_getD_matched _ _ _ _ _ _ _ i him hMM hFDi ?_
    intro k hk
    have hkn : k < cat_2.nrows := by
      have hk2 : k ∈ (mergeMatches pairs).map Prod.snd := hk
      obtain ⟨pr, hpr, hpre⟩ := List.mem_map.mp hk2
      obtain ⟨q, hq, hqe⟩ := mergeMatches_mem_src pairs pr hpr
      rw [← hpre, hqe]
      exact hrange2 q hq
    refine ⟨(mergeFlagMask2 cat_2.nrows pairs).getD k false, ?_⟩
    rw [getD_map_of_lt Val.bool _ k
      (by simp only [mergeFlagMask2, List.length_map, List.length_range]
          exact hkn) Val.masked
      false]
  · rw [if_neg him]
    have hiu : i ∈ mergeUnmatchedIdx1 cat_1.nrows pairs := by
      unfold mergeUnmatchedIdx1
      rw [List.mem_filter]
      exact ⟨List.mem_range.mpr hil, decide_eq_true him⟩
    exact orfill_getD_unmatched _ _ _ _ _ _ _ i hiu hFDi

/-- Concrete witness for flag monotonicity. -/
theorem merge_flag_monotone_witness :
    exF.cellD "flag_merged" 0 = Val.bool true ∧
      (merge_catalogues exF exT2 "RA" "DEC" []).2.2.cellD "flag_merged"
        (mergeOutPos exF.nrows [] 0) = Val.bool true := by
  refine ⟨by decide, ?_⟩
  exact (merge_flag_monotone exF exT2 "RA" "DEC" [] 0
    { name := "flag_merged", unit := none, fill := none
      data := [Val.bool true, Val.bool false] }
    (by unfold Table.WF; decide) (by decide) (by decide) (by decide) (by decide)
    (by decide) (by decide) (by decide) (by decide) (by decide) (by decide)).1

/-- The cell view of a column as a total function of the lookup. -/
theorem colData_eq_map_data (t : Table) (nm : String) :
    t.colData nm = ((t.getCol nm).map Column.data).getD [] := by
  unfold Table.colData
  cases t.getCol nm <;> rfl

/-- Cells are invariant under a data-preserving named update. -/
theorem colData_modifyCol_dataPres (t : Table) (nm : String) (f : Column → Column)
    (hfn : ∀ c, (f c).name = c.name) (hfd : ∀ c, (f c).data = c.data)
    (x : String) : (t.modifyCol nm f).colData x = t.colData x := by
  rw [colData_eq_map_data, colData_eq_map_data,
    map_data_getCol_modifyCol _ _ _ hfn hfd]

/-- Cells are invariant under a unit assignment. -/
theorem colData_setUnit (t : Table) (nm u x : String) :
    (t.setUnit nm u).colData x = t.colData x :=
  colData_modifyCol_dataPres t nm (fun c => { c with unit := some u })
    (fun c => rfl) (fun c => rfl) x

/-- Stage B changes no cat_1 cells outside the `flag_merged` column. -/
theorem colData_mergeCat1Flagged_ne (cat_1 : Table) (pairs : List CrossPair)
    (nm : String) (hnm : nm ≠ "flag_merged") :
    (mergeCat1Flagged cat_1 pairs).colData nm = cat_1.colData nm := by
  simp only [mergeCat1Flagged]
  by_cases h : (((cat_1.setUnit "ra" "deg").setUnit "dec" "deg").getCol
      "flag_merged").isSome = true
  · rw [if_pos h]
    have hor : ((((cat_1.setUnit "ra" "deg").setUnit "dec" "deg").orMask
        "flag_merged" (mergeFlagMask1 cat_1.nrows pairs)).colData nm) =
        (((cat_1.setUnit "ra" "deg").setUnit "dec" "deg").colData nm) := by
      unfold Table.orMask Table.colData
      rw [getCol_modifyCol_ne _ _ _ _ (by intro c; rfl) hnm]
    rw [hor, colData_setUnit, colData_setUnit]
  · rw [if_neg h]
    have hadd : ((((cat_1.setUnit "ra" "deg").setUnit "dec" "deg").addColumn
        { name := "flag_merged", unit := none, fill := none
          data := (mergeFlagMask1 cat_1.nrows pairs).map Val.bool }).colData nm) =
        (((cat_1.setUnit "ra" "deg").setUnit "dec" "deg").colData nm) := by
      unfold Table.colData
      rw [getCol_addColumn_ne]
      show "flag_merged" ≠ nm
      exact fun he => hnm he.symm
    rw [hadd, colData_setUnit, colData_setUnit]

/-- Stage B changes no cat_2 cells outside the `flag_merged_2` column. -/
theorem colData_mergeCat2Flagged_ne (cat_2 : Table) (racol_2 decol_2 : String)
    (pairs : List CrossPair) (nm : String) (hnm : nm ≠ "flag_merged_2") :
    (mergeCat2Flagged cat_2 racol_2 decol_2 pairs).colData nm =
      cat_2.colData nm := by
  unfold mergeCat2Flagged
  have hadd : ((((cat_2.setUnit racol_2 "deg").setUnit decol_2 "deg").addColumn
      { name := "flag_merged_2", unit := none, fill := none
        data := (mergeFlagMask2 cat_2.nrows pairs).map Val.bool }).colData nm) =
      (((cat_2.setUnit racol_2 "deg").setUnit decol_2 "deg").colData nm) := by
    unfold Table.colData
    rw [getCol_addColumn_ne]
    show "flag_merged_2" ≠ nm
    exact fun he => hnm he.symm
  rw [hadd, colData_setUnit, colData_setUnit]

/-- C1 counterexample: `merge_catalogues` mutates its caller's `cat_2` —
the final state of the second argument carries an extra `flag_merged_2`
column, so the inputs are not left unchanged. -/
theorem merge_mutates_inputs_cex :
    (merge_catalogues exT exT2 "RA" "DEC" []).2.1.colnames ≠ exT2.colnames := by
  decide

/-- C1 (amended): `remove_duplicates` operates on a working copy and leaves
its argument unchanged; `merge_catalogues` mutates both caller tables, but
only in the position-column units and the merge-flag columns — every other
column keeps its cells on the returned final states, and the final `cat_2`
gains exactly the appended `flag_merged_2` column. -/
theorem frame_effects_amended (table cat_1 cat_2 : Table)
    (ra_col dec_col : String) (near : Val × Val → Val × Val → Bool)
    (sort_col : Option (List String)) (reverse : Bool) (flag_name : String)
    (racol_2 decol_2 : String) (pairs : List CrossPair) :
    (remove_duplicates table ra_col dec_col near sort_col reverse flag_name).1 =
      table ∧
    (∀ nm, nm ≠ "flag_merged" →
      (merge_catalogues cat_1 cat_2 racol_2 decol_2 pairs).1.colData nm =
        cat_1.colData nm) ∧
    (∀ nm, nm ≠ "flag_merged_2" →
      (merge_catalogues cat_1 cat_2 racol_2 decol_2 pairs).2.1.colData nm =
        cat_2.colData nm) ∧
    (merge_catalogues cat_1 cat_2 racol_2 decol_2 pairs).2.1.colnames =
      cat_2.colnames ++ ["flag_merged_2"] := by
  refine ⟨rfl, ?_, ?_, ?_⟩
  · intro nm hnm
    exact colData_mergeCat1Flagged_ne cat_1 pairs nm hnm
  · intro nm hnm
    exact colData_mergeCat2Flagged_ne cat_2 racol_2 decol_2 pairs nm hnm
  · show (mergeCat2Flagged cat_2 racol_2 decol_2 pairs).colnames = _
    unfold mergeCat2Flagged
    rw [colnames_addColumn, colnames_setUnit, colnames_setUnit]

end Masterlist
